import Mathlib

/-!
# Verification of the alice-rs data codec and scene-graph patch stack

A shallow embedding of the `data` and `widget` modules of the repository:
the value model, the binary codec (`binary_writer.rs` / `binary_reader.rs`),
the generic `Reader` helpers (`reader.rs`), the scene-node model and its
in-place patch routine (`widget/mod.rs`, `model/mod.rs`), and the fragment of
the text codec (`text_writer.rs` / `text_reader.rs`) needed for the stated
round-trip laws.

Modelling conventions:
* Machine integers are `Nat` / `Int` with explicit `% 2 ^ w` where overflow
  matters.  Rust `u8` bytes become `Nat` (entries are `< 256` in every real
  stream); `u32` tags become `Nat`; `i32` becomes `Int`.
* IEEE-754 doubles are carried opaquely as their 64-bit pattern (a `Nat`
  below `2 ^ 64`).  Both codecs only move these bits; no arithmetic on
  doubles occurs anywhere in the verified code.
* Rust `Box<str>` strings are carried as their UTF-8 byte lists; `Box<[u8]>`
  blobs as byte lists.
* Fallible readers return `Option` (`none` = `io::Error`); functions that
  mutate `&mut self` in Rust return the final state next to the
  continuation stream, so partially-updated state on the error path is
  preserved by the model.
-/

/-- IEEE-754 binary64 bit pattern (`f64` in the source).  Well-formed
values are `< 2 ^ 64`. -/
abbrev Double := Nat

/-- `pub type Tag = u32` (`data/mod.rs`). -/
abbrev Tag := Nat

/-- `pub type Vec2 = (f64, f64)` (`data/mod.rs`). -/
abbrev Vec2 := Double × Double

/-- `pub type Vec3 = (f64, f64, f64)` (`data/mod.rs`). -/
abbrev Vec3 := Double × Double × Double

/-- `pub type Vec4 = (f64, f64, f64, f64)` (`data/mod.rs`). -/
abbrev Vec4 := Double × Double × Double × Double

/-- `pub type Box2 = (Vec2, Vec2)` (`data/mod.rs`). -/
abbrev Box2 := Vec2 × Vec2

/-- Concrete byte streams are `List Nat`; entries are `< 256` in every real
stream (`u8` octets). -/
abbrev Byte := Nat

/-- `enum Value` from `data/mod.rs`. -/
inductive Value where
  | tag (v : Tag)
  | bool (v : Bool)
  | boolArray (v : List Bool)
  | int (v : Int)
  | intArray (v : List Int)
  | double (v : Double)
  | doubleArray (v : List Double)
  | vec2 (v : Vec2)
  | vec2Array (v : List Vec2)
  | vec3 (v : Vec3)
  | vec3Array (v : List Vec3)
  | vec4 (v : Vec4)
  | vec4Array (v : List Vec4)
  | box2 (v : Box2)
  | box2Array (v : List Box2)
  | string (v : List Nat)
  | blob (v : List Nat)
deriving DecidableEq, Repr

/-- `enum Token` from `data/reader.rs`. -/
inductive Token where
  | Start
  | End
  | Value (v : Value)
  | EndOfFile
deriving DecidableEq, Repr

/-- `i32` range bound used by `BinaryReader::read_int`. -/
def i32Min : Int := -2147483648

/-- `i32` range bound used by `BinaryReader::read_int`. -/
def i32Max : Int := 2147483647

/-- UTF-8 validity of a byte list, as checked by Rust's
`String::from_utf8` in `BinaryReader::read_string`: the standard table of
well-formed sequences (no overlong forms, no surrogates, max U+10FFFF). -/
def isValidUtf8 : List Nat → Bool
  | [] => true
  | b :: rest =>
    if b < 0x80 then isValidUtf8 rest
    else if b < 0xc2 then false
    else if b < 0xe0 then
      match rest with
      | c :: rest => 0x80 ≤ c && c ≤ 0xbf && isValidUtf8 rest
      | _ => false
    else if b = 0xe0 then
      match rest with
      | c :: d :: rest => 0xa0 ≤ c && c ≤ 0xbf && 0x80 ≤ d && d ≤ 0xbf && isValidUtf8 rest
      | _ => false
    else if b < 0xed then
      match rest with
      | c :: d :: rest => 0x80 ≤ c && c ≤ 0xbf && 0x80 ≤ d && d ≤ 0xbf && isValidUtf8 rest
      | _ => false
    else if b = 0xed then
      match rest with
      | c :: d :: rest => 0x80 ≤ c && c ≤ 0x9f && 0x80 ≤ d && d ≤ 0xbf && isValidUtf8 rest
      | _ => false
    else if b < 0xf0 then
      match rest with
      | c :: d :: rest => 0x80 ≤ c && c ≤ 0xbf && 0x80 ≤ d && d ≤ 0xbf && isValidUtf8 rest
      | _ => false
    else if b = 0xf0 then
      match rest with
      | c :: d :: e :: rest =>
          0x90 ≤ c && c ≤ 0xbf && 0x80 ≤ d && d ≤ 0xbf && 0x80 ≤ e && e ≤ 0xbf &&
          isValidUtf8 rest
      | _ => false
    else if b < 0xf4 then
      match rest with
      | c :: d :: e :: rest =>
          0x80 ≤ c && c ≤ 0xbf && 0x80 ≤ d && d ≤ 0xbf && 0x80 ≤ e && e ≤ 0xbf &&
          isValidUtf8 rest
      | _ => false
    else if b = 0xf4 then
      match rest with
      | c :: d :: e :: rest =>
          0x80 ≤ c && c ≤ 0x8f && 0x80 ≤ d && d ≤ 0xbf && 0x80 ≤ e && e ≤ 0xbf &&
          isValidUtf8 rest
      | _ => false
    else false

/-- The bounds of one `f64` bit pattern. -/
def WFDouble (d : Double) : Prop := d < 2 ^ 64

/-- The bounds of a `Vec2`. -/
def WFVec2 (v : Vec2) : Prop := v.1 < 2 ^ 64 ∧ v.2 < 2 ^ 64

/-- The bounds of a `Vec3`. -/
def WFVec3 (v : Vec3) : Prop := v.1 < 2 ^ 64 ∧ v.2.1 < 2 ^ 64 ∧ v.2.2 < 2 ^ 64

/-- The bounds of a `Vec4`. -/
def WFVec4 (v : Vec4) : Prop :=
  v.1 < 2 ^ 64 ∧ v.2.1 < 2 ^ 64 ∧ v.2.2.1 < 2 ^ 64 ∧ v.2.2.2 < 2 ^ 64

/-- The bounds of a `Box2`. -/
def WFBox2 (v : Box2) : Prop := WFVec2 v.1 ∧ WFVec2 v.2

/-- The `i32` range. -/
def WFInt (v : Int) : Prop := i32Min ≤ v ∧ v ≤ i32Max

/-- Well-formedness of a `Value`: every component inhabits the range of its
Rust type (`f64` bit patterns below `2 ^ 64`, `i32` in range, `u32` tags,
bytes below 256, strings valid UTF-8, `usize` lengths). -/
def WFValue : Value → Prop
  | .tag v => v < 2 ^ 32
  | .bool _ => True
  | .boolArray vs => vs.length < 2 ^ 64
  | .int v => WFInt v
  | .intArray vs => vs.length < 2 ^ 64 ∧ ∀ v ∈ vs, WFInt v
  | .double v => WFDouble v
  | .doubleArray vs => vs.length < 2 ^ 64 ∧ ∀ v ∈ vs, WFDouble v
  | .vec2 v => WFVec2 v
  | .vec2Array vs => vs.length < 2 ^ 64 ∧ ∀ v ∈ vs, WFVec2 v
  | .vec3 v => WFVec3 v
  | .vec3Array vs => vs.length < 2 ^ 64 ∧ ∀ v ∈ vs, WFVec3 v
  | .vec4 v => WFVec4 v
  | .vec4Array vs => vs.length < 2 ^ 64 ∧ ∀ v ∈ vs, WFVec4 v
  | .box2 v => WFBox2 v
  | .box2Array vs => vs.length < 2 ^ 64 ∧ ∀ v ∈ vs, WFBox2 v
  | .string s => s.length < 2 ^ 64 ∧ (∀ b ∈ s, b < 256) ∧ isValidUtf8 s = true
  | .blob bs => bs.length < 2 ^ 64 ∧ ∀ b ∈ bs, b < 256

namespace BinaryWriter

/-- `n` bytes of `v`, little-endian (`byteorder::LittleEndian`). -/
def toLEBytes : Nat → Nat → List Nat
  | 0, _ => []
  | k + 1, v => v % 256 :: toLEBytes k (v / 256)

/-- `BinaryWriter::write_tag`: 4 bytes big-endian (`write_u32::<BigEndian>`).
(The binder is spelled `Nat`, the definition of `Tag`, so that arithmetic
elaborates at `Nat`.) -/
def writeTag (value : Nat) : List Nat :=
  [value / 2 ^ 24 % 256, value / 2 ^ 16 % 256, value / 2 ^ 8 % 256, value % 256]

/-- `BinaryWriter::write_bool`. -/
def writeBool (value : Bool) : List Nat :=
  [if value then 0x01 else 0x00]

/-- The loop of `BinaryWriter::write_uint`, unrolled on an iteration budget.
A `u64` needs at most 10 LEB128 bytes, so a budget of 11 never runs out for
a value below `2 ^ 64` — on that domain this is exactly the source loop. -/
def writeUintAux : Nat → Nat → List Nat
  | 0, _ => []
  | fuel + 1, value =>
    let byte := value % 128
    if value / 128 = 0 then [byte] else (byte + 128) :: writeUintAux fuel (value / 128)

/-- `BinaryWriter::write_uint`: LEB128 loop.  `value & 0x7f` is `value % 128`
and `value >>= 7` is `value / 128` on the `u64` argument. -/
def writeUint (value : Nat) : List Nat :=
  writeUintAux 11 value

/-- `BinaryWriter::write_sint`: zig-zag.  For `value < 0` the source computes
`!(value << 1) as u64`, which on two's complement equals `2 * (-value) - 1`;
otherwise `(value << 1) as u64 = 2 * value`.  (The only caller passes `i32`
values, for which the `i64` shift cannot overflow.) -/
def writeSint (value : Int) : List Nat :=
  writeUint (if value < 0 then (2 * (-value) - 1).toNat else (2 * value).toNat)

/-- `BinaryWriter::write_int`. -/
def writeInt (value : Int) : List Nat :=
  writeSint value

/-- `BinaryWriter::write_double`: 8 bytes little-endian of the bit pattern. -/
def writeDouble (value : Double) : List Nat :=
  toLEBytes 8 value

/-- `BinaryWriter::write_vec2`. -/
def writeVec2 (value : Vec2) : List Nat :=
  writeDouble value.1 ++ writeDouble value.2

/-- `BinaryWriter::write_vec3`. -/
def writeVec3 (value : Vec3) : List Nat :=
  writeDouble value.1 ++ writeDouble value.2.1 ++ writeDouble value.2.2

/-- `BinaryWriter::write_vec4`. -/
def writeVec4 (value : Vec4) : List Nat :=
  writeDouble value.1 ++ writeDouble value.2.1 ++ writeDouble value.2.2.1 ++
    writeDouble value.2.2.2

/-- `BinaryWriter::write_box2`. -/
def writeBox2 (value : Box2) : List Nat :=
  writeVec2 value.1 ++ writeVec2 value.2

/-- `BinaryWriter::write_string`: varint byte length, then the UTF-8 bytes. -/
def writeString (value : List Nat) : List Nat :=
  writeUint value.length ++ value

/-- `BinaryWriter::write_blob`. -/
def writeBlob (value : List Nat) : List Nat :=
  writeUint value.length ++ value

/-- `BinaryWriter::write_array`: varint element count, then each element. -/
def writeArray (f : α → List Nat) (values : List α) : List Nat :=
  writeUint values.length ++ (values.map f).flatten

/-- `get_type` from `binary_writer.rs`. -/
def getType : Value → Byte
  | .bool _ => 0x00
  | .int _ => 0x01
  | .double _ => 0x02
  | .vec2 _ => 0x03
  | .vec3 _ => 0x04
  | .vec4 _ => 0x05
  | .box2 _ => 0x06
  | .string _ => 0x07
  | .blob _ => 0x08
  | .tag _ => 0xee
  | .boolArray _ => 0x80
  | .intArray _ => 0x81
  | .doubleArray _ => 0x82
  | .vec2Array _ => 0x83
  | .vec3Array _ => 0x84
  | .vec4Array _ => 0x85
  | .box2Array _ => 0x86

/-- `BinaryWriter::write_value`: the type byte, then the payload. -/
def writeValue (value : Value) : List Nat :=
  getType value ::
    match value with
    | .bool v => writeBool v
    | .int v => writeInt v
    | .double v => writeDouble v
    | .vec2 v => writeVec2 v
    | .vec3 v => writeVec3 v
    | .vec4 v => writeVec4 v
    | .box2 v => writeBox2 v
    | .string v => writeString v
    | .blob v => writeBlob v
    | .tag v => writeTag v
    | .boolArray v => writeArray writeBool v
    | .intArray v => writeArray writeInt v
    | .doubleArray v => writeArray writeDouble v
    | .vec2Array v => writeArray writeVec2 v
    | .vec3Array v => writeArray writeVec3 v
    | .vec4Array v => writeArray writeVec4 v
    | .box2Array v => writeArray writeBox2 v

/-- `BinaryWriter::write_start`. -/
def writeStart : List Nat := [0xfe]

/-- `BinaryWriter::write_end`. -/
def writeEnd : List Nat := [0xef]

end BinaryWriter

namespace BinaryReader

/-- The loop of `BinaryReader::read_uint`, carrying the bytes consumed so far
(`length`) and the `u64` accumulator.  The guard `length > 10` is checked
before each byte is read, exactly as in the source.  The accumulator is a
`u64`, hence the `% 2 ^ 64`.  (For the 11th data byte the source shifts by
70 bits, which panics in a debug build and is implementation-masked in
release; the model keeps the mathematical shift, whose bits vanish in the
64-bit mask.  This can only affect the value decoded from an 11-byte
encoding, never whether an error is returned.) -/
def readUintAux : List Nat → Nat → Nat → Option (Nat × List Nat)
  | input, length, result =>
    if length > 10 then none
    else
      match input with
      | [] => none
      | b :: rest =>
        let result := (result ||| ((b &&& 0x7f) <<< (length * 7))) % 2 ^ 64
        if b &&& 0x80 = 0 then some (result, rest)
        else readUintAux rest (length + 1) result

/-- `BinaryReader::read_uint`. -/
def readUint (input : List Nat) : Option (Nat × List Nat) :=
  readUintAux input 0 0

/-- `BinaryReader::read_sint`: zig-zag decode.  `!(uvalue >> 1) as i64` on
two's complement equals `-(uvalue >> 1) - 1`. -/
def readSint (input : List Nat) : Option (Int × List Nat) :=
  match readUint input with
  | none => none
  | some (uvalue, rest) =>
    some (if uvalue &&& 1 ≠ 0 then -((uvalue >>> 1 : Nat) : Int) - 1
          else ((uvalue >>> 1 : Nat) : Int), rest)

/-- `BinaryReader::read_int`: zig-zag decode plus the `i32` range check. -/
def readInt (input : List Nat) : Option (Int × List Nat) :=
  match readSint input with
  | none => none
  | some (value, rest) =>
    if value > i32Max ∨ value < i32Min then none else some (value, rest)

/-- `BinaryReader::read_bool`: one byte, nonzero = true. -/
def readBool (input : List Nat) : Option (Bool × List Nat) :=
  match input with
  | [] => none
  | b :: rest => some (b ≠ 0, rest)

/-- `n` bytes, little-endian (`read_f64::<LittleEndian>` payload). -/
def fromLEBytes : Nat → List Nat → Option (Nat × List Nat)
  | 0, input => some (0, input)
  | _ + 1, [] => none
  | k + 1, b :: rest =>
    match fromLEBytes k rest with
    | none => none
    | some (n, rest) => some (b + 256 * n, rest)

/-- `BinaryReader::read_double`. -/
def readDouble (input : List Nat) : Option (Double × List Nat) :=
  fromLEBytes 8 input

/-- `BinaryReader::read_tag`: `read_u32::<BigEndian>`. -/
def readTag (input : List Nat) : Option (Nat × List Nat) :=
  match input with
  | a :: b :: c :: d :: rest => some (((a * 256 + b) * 256 + c) * 256 + d, rest)
  | _ => none

/-- `BinaryReader::read_vec2`. -/
def readVec2 (input : List Nat) : Option (Vec2 × List Nat) :=
  match readDouble input with
  | none => none
  | some (x, input) =>
    match readDouble input with
    | none => none
    | some (y, input) => some ((x, y), input)

/-- `BinaryReader::read_vec3`. -/
def readVec3 (input : List Nat) : Option (Vec3 × List Nat) :=
  match readDouble input with
  | none => none
  | some (x, input) =>
    match readDouble input with
    | none => none
    | some (y, input) =>
      match readDouble input with
      | none => none
      | some (z, input) => some ((x, y, z), input)

/-- `BinaryReader::read_vec4`. -/
def readVec4 (input : List Nat) : Option (Vec4 × List Nat) :=
  match readDouble input with
  | none => none
  | some (x, input) =>
    match readDouble input with
    | none => none
    | some (y, input) =>
      match readDouble input with
      | none => none
      | some (z, input) =>
        match readDouble input with
        | none => none
        | some (w, input) => some ((x, y, z, w), input)

/-- `BinaryReader::read_box2`. -/
def readBox2 (input : List Nat) : Option (Box2 × List Nat) :=
  match readVec2 input with
  | none => none
  | some (min, input) =>
    match readVec2 input with
    | none => none
    | some (max, input) => some ((min, max), input)

/-- `read_exact` into a buffer of the given length. -/
def readExact : Nat → List Nat → Option (List Nat × List Nat)
  | 0, input => some ([], input)
  | _ + 1, [] => none
  | k + 1, b :: rest =>
    match readExact k rest with
    | none => none
    | some (bs, r) => some (b :: bs, r)

/-- `BinaryReader::read_string`: varint length, that many bytes, then the
`String::from_utf8` validity check. -/
def readString (input : List Nat) : Option (List Nat × List Nat) :=
  match readUint input with
  | none => none
  | some (length, input) =>
    match readExact length input with
    | none => none
    | some (buffer, rest) =>
      if isValidUtf8 buffer then some (buffer, rest) else none

/-- `BinaryReader::read_blob`. -/
def readBlob (input : List Nat) : Option (List Nat × List Nat) :=
  match readUint input with
  | none => none
  | some (length, input) => readExact length input

/-- The element loop of `BinaryReader::read_array_values`. -/
def readValues (f : List Nat → Option (α × List Nat)) :
    Nat → List Nat → Option (List α × List Nat)
  | 0, input => some ([], input)
  | k + 1, input =>
    match f input with
    | none => none
    | some (v, input) =>
      match readValues f k input with
      | none => none
      | some (vs, rest) => some (v :: vs, rest)

/-- `BinaryReader::read_array_values`: varint count then that many elements. -/
def readArrayValues (f : List Nat → Option (α × List Nat)) (input : List Nat) :
    Option (List α × List Nat) :=
  match readUint input with
  | none => none
  | some (length, input) => readValues f length input

/-- `BinaryReader::read_value`, dispatching on the type byte. -/
def readValue (t : Nat) (input : List Nat) : Option (Value × List Nat) :=
  if t = 0x00 then (readBool input).map fun (v, r) => (.bool v, r)
  else if t = 0x01 then (readInt input).map fun (v, r) => (.int v, r)
  else if t = 0x02 then (readDouble input).map fun (v, r) => (.double v, r)
  else if t = 0x03 then (readVec2 input).map fun (v, r) => (.vec2 v, r)
  else if t = 0x04 then (readVec3 input).map fun (v, r) => (.vec3 v, r)
  else if t = 0x05 then (readVec4 input).map fun (v, r) => (.vec4 v, r)
  else if t = 0x06 then (readBox2 input).map fun (v, r) => (.box2 v, r)
  else if t = 0x07 then (readString input).map fun (v, r) => (.string v, r)
  else if t = 0x08 then (readBlob input).map fun (v, r) => (.blob v, r)
  else if t = 0xee then (readTag input).map fun (v, r) => (.tag v, r)
  else none

/-- `BinaryReader::read_array`, dispatching on the type byte. -/
def readArray (t : Nat) (input : List Nat) : Option (Value × List Nat) :=
  if t = 0x80 then (readArrayValues readBool input).map fun (v, r) => (.boolArray v, r)
  else if t = 0x81 then (readArrayValues readInt input).map fun (v, r) => (.intArray v, r)
  else if t = 0x82 then
    (readArrayValues readDouble input).map fun (v, r) => (.doubleArray v, r)
  else if t = 0x83 then
    (readArrayValues readVec2 input).map fun (v, r) => (.vec2Array v, r)
  else if t = 0x84 then
    (readArrayValues readVec3 input).map fun (v, r) => (.vec3Array v, r)
  else if t = 0x85 then
    (readArrayValues readVec4 input).map fun (v, r) => (.vec4Array v, r)
  else if t = 0x86 then
    (readArrayValues readBox2 input).map fun (v, r) => (.box2Array v, r)
  else none

/-- `BinaryReader::read_next` (the `Reader` impl in `binary_reader.rs`):
a zero-byte read yields `EndOfFile`; otherwise dispatch on the first byte. -/
def readNext (input : List Nat) : Option (Token × List Nat) :=
  match input with
  | [] => some (.EndOfFile, [])
  | b :: rest =>
    if b = 0xfe then some (.Start, rest)
    else if b = 0xef then some (.End, rest)
    else if b ≤ 0x08 ∨ b = 0xee then (readValue b rest).map fun (v, r) => (.Value v, r)
    else if 0x80 ≤ b ∧ b ≤ 0x86 then (readArray b rest).map fun (v, r) => (.Value v, r)
    else none

end BinaryReader


/-! ## Binary round-trip (write then read) -/

namespace BinaryRT

open BinaryWriter BinaryReader

/-- Bitwise-or of values occupying disjoint bit ranges is addition. -/
theorem lor_shiftLeft_eq_add {a : Nat} (k b : Nat) (ha : a < 2 ^ k) :
    a ||| (b <<< k) = a + b * 2 ^ k := by
  apply Nat.eq_of_testBit_eq
  intro i
  rw [Nat.testBit_lor, Nat.testBit_shiftLeft,
    show a + b * 2 ^ k = 2 ^ k * b + a by ring,
    Nat.testBit_mul_pow_two_add b ha i]
  rcases lt_or_ge i k with h | h
  · have h1 : (decide (i ≥ k)) = false := by simp; omega
    simp [h1, h]
  · have h1 : (decide (i ≥ k)) = true := by simp; omega
    have h2 : a.testBit i = false :=
      Nat.testBit_lt_two_pow (lt_of_lt_of_le ha (Nat.pow_le_pow_right (by omega) h))
    have h3 : ¬ i < k := by omega
    simp [h1, h2, h3]

theorem and_127 (n : Nat) : n &&& 127 = n % 128 := by
  have := Nat.and_pow_two_sub_one_eq_mod n 7
  norm_num at this
  exact this

theorem and_128_of_lt {n : Nat} (h : n < 128) : n &&& 128 = 0 := by
  have h7 : n.testBit 7 = false := Nat.testBit_lt_two_pow (by norm_num; omega)
  have := Nat.and_two_pow n 7
  norm_num at this
  simp [this, h7]

theorem and_128_mod_add {n : Nat} : (n % 128 + 128) &&& 128 = 128 := by
  have h7 : (n % 128 + 128).testBit 7 = true := by
    rw [Nat.testBit_to_div_mod]
    have h : (n % 128 + 128) / 2 ^ 7 = 1 := by omega
    rw [h]
    rfl
  have := Nat.and_two_pow (n % 128 + 128) 7
  norm_num at this
  simp [this, h7]

/-- One reader step on a masked accumulator whose bit ranges are disjoint. -/
theorem step_eq (acc b l : Nat) (hacc : acc < 2 ^ (7 * l))
    (hbound : acc + b * 2 ^ (7 * l) < 2 ^ 64) :
    (acc ||| (b <<< (l * 7))) % 2 ^ 64 = acc + b * 2 ^ (7 * l) := by
  rw [show l * 7 = 7 * l by ring, lor_shiftLeft_eq_add (7 * l) b hacc,
    Nat.mod_eq_of_lt hbound]

/-- Unfolding equation for `writeUintAux`. -/
theorem writeUintAux_succ (fuel value : Nat) :
    writeUintAux (fuel + 1) value =
      if value / 128 = 0 then [value % 128]
      else (value % 128 + 128) :: writeUintAux fuel (value / 128) := by
  rw [writeUintAux]

/-- Unfolding equation for `readUintAux` on a cons cell below the guard. -/
theorem readUintAux_cons (b : Nat) (rest : List Nat) (l acc : Nat) (hl : ¬ l > 10) :
    readUintAux (b :: rest) l acc =
      if b &&& 0x80 = 0 then some ((acc ||| ((b &&& 0x7f) <<< (l * 7))) % 2 ^ 64, rest)
      else readUintAux rest (l + 1) ((acc ||| ((b &&& 0x7f) <<< (l * 7))) % 2 ^ 64) := by
  rw [readUintAux]
  simp [hl]

/-- The LEB128 round trip, generalized over the writer budget, the reader
byte counter and the reader accumulator. -/
theorem readUintAux_writeUintAux (fuel : Nat) :
    ∀ n l acc rest, n < 128 ^ (fuel + 1) → fuel + 1 + l ≤ 11 →
    acc < 2 ^ (7 * l) → acc + n * 2 ^ (7 * l) < 2 ^ 64 →
    readUintAux (writeUintAux (fuel + 1) n ++ rest) l acc =
      some (acc + n * 2 ^ (7 * l), rest) := by
  induction fuel with
  | zero =>
    intro n l acc rest hn hl hacc hbound
    have hn' : n < 128 := by norm_num at hn; omega
    have hdiv : n / 128 = 0 := by omega
    have hguard : ¬ l > 10 := by omega
    have hb' : acc + n % 128 * 2 ^ (7 * l) < 2 ^ 64 := by
      have := Nat.mul_le_mul_right (2 ^ (7 * l)) (Nat.mod_le n 128)
      omega
    rw [writeUintAux_succ, if_pos hdiv, List.cons_append, List.nil_append,
      readUintAux_cons _ _ _ _ hguard,
      show n % 128 &&& 127 = n % 128 by rw [and_127]; omega,
      show n % 128 &&& 128 = 0 from and_128_of_lt (by omega),
      if_pos rfl, step_eq acc (n % 128) l hacc hb', Nat.mod_eq_of_lt hn']
  | succ fuel ih =>
    intro n l acc rest hn hl hacc hbound
    rcases Nat.eq_zero_or_pos (n / 128) with hdiv | hdiv
    · have hn' : n < 128 := by omega
      have hguard : ¬ l > 10 := by omega
      have hb' : acc + n % 128 * 2 ^ (7 * l) < 2 ^ 64 := by
        have := Nat.mul_le_mul_right (2 ^ (7 * l)) (Nat.mod_le n 128)
        omega
      rw [writeUintAux_succ, if_pos hdiv, List.cons_append, List.nil_append,
        readUintAux_cons _ _ _ _ hguard,
        show n % 128 &&& 127 = n % 128 by rw [and_127]; omega,
        show n % 128 &&& 128 = 0 from and_128_of_lt (by omega),
        if_pos rfl, step_eq acc (n % 128) l hacc hb', Nat.mod_eq_of_lt hn']
    · have hdiv' : ¬ n / 128 = 0 := by omega
      have hguard : ¬ l > 10 := by omega
      have hb' : acc + n % 128 * 2 ^ (7 * l) < 2 ^ 64 := by
        have := Nat.mul_le_mul_right (2 ^ (7 * l)) (Nat.mod_le n 128)
        omega
      rw [writeUintAux_succ, if_neg hdiv', List.cons_append,
        readUintAux_cons _ _ _ _ hguard,
        show n % 128 + 128 &&& 127 = n % 128 by rw [and_127]; omega,
        show n % 128 + 128 &&& 128 = 128 from and_128_mod_add,
        if_neg (by omega : ¬ (128 : Nat) = 0),
        step_eq acc (n % 128) l hacc hb']
      have h1 : n / 128 < 128 ^ (fuel + 1) := by
        rw [pow_succ] at hn
        exact Nat.div_lt_of_lt_mul (by omega)
      have h2 : fuel + 1 + (l + 1) ≤ 11 := by omega
      have hpow : 2 ^ (7 * (l + 1)) = 2 ^ (7 * l) * 128 := by
        rw [show 7 * (l + 1) = 7 * l + 7 by ring, pow_add]
        norm_num
      have h3 : acc + n % 128 * 2 ^ (7 * l) < 2 ^ (7 * (l + 1)) := by
        have h127 : n % 128 ≤ 127 := by omega
        have := Nat.mul_le_mul_right (2 ^ (7 * l)) h127
        nlinarith
      have hsplit : n % 128 * 2 ^ (7 * l) + n / 128 * 2 ^ (7 * (l + 1)) =
          n * 2 ^ (7 * l) := by
        rw [hpow]
        nlinarith [Nat.div_add_mod n 128]
      have h4 : acc + n % 128 * 2 ^ (7 * l) + n / 128 * 2 ^ (7 * (l + 1)) < 2 ^ 64 := by
        omega
      rw [ih (n / 128) (l + 1) (acc + n % 128 * 2 ^ (7 * l)) rest h1 h2 h3 h4]
      congr 2
      omega

/-- `read_uint` round trip for every `u64`. -/
theorem readUint_writeUint {n : Nat} (hn : n < 2 ^ 64) (rest : List Nat) :
    readUint (writeUint n ++ rest) = some (n, rest) := by
  have h := readUintAux_writeUintAux 10 n 0 0 rest
    (by calc n < 2 ^ 64 := hn
          _ < 128 ^ 11 := by norm_num)
    (by omega) (by norm_num) (by simpa using hn)
  simpa [readUint, writeUint] using h

/-- Zig-zag decode of a zig-zag encoded `i32` recovers the value. -/
theorem readSint_writeSint {v : Int} (h1 : i32Min ≤ v) (h2 : v ≤ i32Max)
    (rest : List Nat) :
    readSint (writeSint v ++ rest) = some (v, rest) := by
  rw [i32Min] at h1
  rw [i32Max] at h2
  rw [writeSint]
  set z : Nat := if v < 0 then (2 * -v - 1).toNat else (2 * v).toNat with hz
  have hzlt : z < 2 ^ 64 := by
    rw [hz]
    split <;> omega
  rw [readSint, readUint_writeUint hzlt]
  dsimp only
  have hodd : z &&& 1 = z % 2 := Nat.and_one_is_mod z
  have hshift : (z >>> 1 : Nat) = z / 2 := by
    simp [Nat.shiftRight_eq_div_pow]
  rcases lt_or_ge v 0 with hv | hv
  · have hzv : z = (2 * -v - 1).toNat := by rw [hz, if_pos hv]
    have hmod : ¬ z % 2 = 0 := by omega
    rw [hodd, hshift, if_pos hmod]
    have hval : -((z / 2 : Nat) : Int) - 1 = v := by omega
    rw [hval]
  · have hzv : z = (2 * v).toNat := by rw [hz, if_neg (by omega)]
    have hmod : z % 2 = 0 := by omega
    rw [hodd, hshift, if_neg (fun hE => by omega)]
    have hval : ((z / 2 : Nat) : Int) = v := by omega
    rw [hval]

/-- Zig-zag encode then decode is the identity on `i32` values, and the
range check passes. -/
theorem readInt_writeInt {v : Int} (h1 : i32Min ≤ v) (h2 : v ≤ i32Max)
    (rest : List Nat) :
    readInt (writeInt v ++ rest) = some (v, rest) := by
  rw [writeInt, readInt, readSint_writeSint h1 h2]
  dsimp only
  rw [if_neg (by simp only [i32Max, i32Min] at h1 h2 ⊢; omega)]

/-- Little-endian byte round trip. -/
theorem fromLEBytes_toLEBytes (k : Nat) :
    ∀ n rest, n < 2 ^ (8 * k) →
    fromLEBytes k (toLEBytes k n ++ rest) = some (n, rest) := by
  induction k with
  | zero =>
    intro n rest hn
    norm_num at hn
    simp [toLEBytes, fromLEBytes, hn]
  | succ k ih =>
    intro n rest hn
    have hsplitpow : 2 ^ (8 * (k + 1)) = 2 ^ (8 * k) * 256 := by
      rw [show 8 * (k + 1) = 8 * k + 8 by ring, pow_add]
      norm_num
    rw [hsplitpow] at hn
    have hdiv : n / 256 < 2 ^ (8 * k) := by omega
    rw [toLEBytes, List.cons_append, fromLEBytes, ih (n / 256) rest hdiv]
    simp only [Option.some.injEq, Prod.mk.injEq]
    exact ⟨by omega, trivial⟩

/-- `read_double` / `write_double` round trip on 64-bit patterns. -/
theorem readDouble_writeDouble {d : Double} (hd : d < 2 ^ 64) (rest : List Nat) :
    readDouble (writeDouble d ++ rest) = some (d, rest) := by
  have h64 : (8 : Nat) * 8 = 64 := by norm_num
  rw [readDouble, writeDouble, fromLEBytes_toLEBytes 8 d rest (by rw [h64]; exact hd)]

/-- `read_tag` / `write_tag` round trip on `u32` tags. -/
theorem readTag_writeTag {t : Nat} (ht : t < 2 ^ 32) (rest : List Nat) :
    readTag (writeTag t ++ rest) = some (t, rest) := by
  simp only [writeTag, List.cons_append, List.nil_append]
  rw [readTag]
  simp only [Option.some.injEq, Prod.mk.injEq]
  refine ⟨?_, trivial⟩
  omega

/-- `read_bool` / `write_bool` round trip. -/
theorem readBool_writeBool (b : Bool) (rest : List Nat) :
    readBool (writeBool b ++ rest) = some (b, rest) := by
  cases b <;> simp [writeBool, readBool]

theorem readVec2_writeVec2 {v : Vec2} (h : v.1 < 2 ^ 64 ∧ v.2 < 2 ^ 64)
    (rest : List Nat) : readVec2 (writeVec2 v ++ rest) = some (v, rest) := by
  obtain ⟨x, y⟩ := v
  obtain ⟨hx, hy⟩ := h
  dsimp only at hx hy
  simp [writeVec2, readVec2, List.append_assoc,
    readDouble_writeDouble hx, readDouble_writeDouble hy]

theorem readVec3_writeVec3 {v : Vec3}
    (h : v.1 < 2 ^ 64 ∧ v.2.1 < 2 ^ 64 ∧ v.2.2 < 2 ^ 64)
    (rest : List Nat) : readVec3 (writeVec3 v ++ rest) = some (v, rest) := by
  obtain ⟨x, y, z⟩ := v
  obtain ⟨hx, hy, hz⟩ := h
  dsimp only at hx hy hz
  simp [writeVec3, readVec3, List.append_assoc, readDouble_writeDouble hx,
    readDouble_writeDouble hy, readDouble_writeDouble hz]

theorem readVec4_writeVec4 {v : Vec4}
    (h : v.1 < 2 ^ 64 ∧ v.2.1 < 2 ^ 64 ∧ v.2.2.1 < 2 ^ 64 ∧ v.2.2.2 < 2 ^ 64)
    (rest : List Nat) : readVec4 (writeVec4 v ++ rest) = some (v, rest) := by
  obtain ⟨x, y, z, w⟩ := v
  obtain ⟨hx, hy, hz, hw⟩ := h
  dsimp only at hx hy hz hw
  simp [writeVec4, readVec4, List.append_assoc, readDouble_writeDouble hx,
    readDouble_writeDouble hy, readDouble_writeDouble hz, readDouble_writeDouble hw]

theorem readBox2_writeBox2 {v : Box2}
    (h : v.1.1 < 2 ^ 64 ∧ v.1.2 < 2 ^ 64 ∧ v.2.1 < 2 ^ 64 ∧ v.2.2 < 2 ^ 64)
    (rest : List Nat) : readBox2 (writeBox2 v ++ rest) = some (v, rest) := by
  obtain ⟨a, b⟩ := v
  obtain ⟨h1, h2, h3, h4⟩ := h
  dsimp only at h1 h2 h3 h4
  simp [writeBox2, readBox2, List.append_assoc,
    readVec2_writeVec2 (⟨h1, h2⟩ : a.1 < 2 ^ 64 ∧ a.2 < 2 ^ 64),
    readVec2_writeVec2 (⟨h3, h4⟩ : b.1 < 2 ^ 64 ∧ b.2 < 2 ^ 64)]

/-- `read_exact` recovers exactly the prefix it is asked for. -/
theorem readExact_append (bs : List Nat) (rest : List Nat) :
    readExact bs.length (bs ++ rest) = some (bs, rest) := by
  induction bs with
  | nil => simp [readExact]
  | cons b bs ih => simp [readExact, ih]

theorem readString_writeString {s : List Nat} (hlen : s.length < 2 ^ 64)
    (hutf : isValidUtf8 s = true) (rest : List Nat) :
    readString (writeString s ++ rest) = some (s, rest) := by
  rw [writeString, readString, List.append_assoc, readUint_writeUint hlen]
  dsimp only
  rw [readExact_append]
  dsimp only
  rw [if_pos hutf]

theorem readBlob_writeBlob {s : List Nat} (hlen : s.length < 2 ^ 64)
    (rest : List Nat) : readBlob (writeBlob s ++ rest) = some (s, rest) := by
  rw [writeBlob, readBlob, List.append_assoc, readUint_writeUint hlen]
  dsimp only
  rw [readExact_append]

/-- The element loop of `read_array_values` recovers a written list. -/
theorem readValues_flatten {α : Type} (f : List Nat → Option (α × List Nat))
    (w : α → List Nat) (vs : List α)
    (H : ∀ x ∈ vs, ∀ r, f (w x ++ r) = some (x, r)) (rest : List Nat) :
    readValues f vs.length ((vs.map w).flatten ++ rest) = some (vs, rest) := by
  induction vs with
  | nil => simp [readValues]
  | cons v vs ih =>
    rw [List.map_cons, List.flatten_cons, List.length_cons, readValues,
      List.append_assoc, H v (by simp) _]
    dsimp only
    rw [ih fun x hx r => H x (by simp [hx]) r]

theorem readArrayValues_writeArray {α : Type} (f : List Nat → Option (α × List Nat))
    (w : α → List Nat) (vs : List α) (hlen : vs.length < 2 ^ 64)
    (H : ∀ x ∈ vs, ∀ r, f (w x ++ r) = some (x, r)) (rest : List Nat) :
    readArrayValues f (writeArray w vs ++ rest) = some (vs, rest) := by
  rw [writeArray, readArrayValues, List.append_assoc, readUint_writeUint hlen]
  dsimp only
  rw [readValues_flatten f w vs H]

end BinaryRT


namespace BinaryRT

open BinaryWriter BinaryReader

/-- A value-kind type byte dispatches `read_next` into `read_value`. -/
theorem readNext_value_byte (t : Nat) (h : t ≤ 8 ∨ t = 0xee) (input : List Nat) :
    readNext (t :: input) = (readValue t input).map fun (v, r) => (Token.Value v, r) := by
  simp only [readNext]
  rw [if_neg (by omega), if_neg (fun hE => by omega), if_pos (by omega)]

/-- An array-kind type byte dispatches `read_next` into `read_array`. -/
theorem readNext_array_byte (t : Nat) (h : 0x80 ≤ t ∧ t ≤ 0x86) (input : List Nat) :
    readNext (t :: input) = (readArray t input).map fun (v, r) => (Token.Value v, r) := by
  simp only [readNext]
  rw [if_neg (by omega), if_neg (fun hE => by omega), if_neg (by omega), if_pos (by omega)]

/-- Binary round trip of a single well-formed value. -/
theorem readNext_writeValue {v : Value} (h : WFValue v) (rest : List Nat) :
    readNext (writeValue v ++ rest) = some (Token.Value v, rest) := by
  cases v with
  | tag v =>
    simp only [WFValue] at h
    simp only [writeValue, getType, List.cons_append]
    rw [readNext_value_byte _ (by omega)]
    simp [readValue, readTag_writeTag h]
  | bool v =>
    simp only [writeValue, getType, List.cons_append]
    rw [readNext_value_byte _ (by omega)]
    simp [readValue, readBool_writeBool]
  | int v =>
    simp only [WFValue, WFInt] at h
    simp only [writeValue, getType, List.cons_append]
    rw [readNext_value_byte _ (by omega)]
    simp [readValue, readInt_writeInt h.1 h.2]
  | double v =>
    simp only [WFValue, WFDouble] at h
    simp only [writeValue, getType, List.cons_append]
    rw [readNext_value_byte _ (by omega)]
    simp [readValue, readDouble_writeDouble h]
  | vec2 v =>
    simp only [WFValue, WFVec2] at h
    simp only [writeValue, getType, List.cons_append]
    rw [readNext_value_byte _ (by omega)]
    simp [readValue, readVec2_writeVec2 h]
  | vec3 v =>
    simp only [WFValue, WFVec3] at h
    simp only [writeValue, getType, List.cons_append]
    rw [readNext_value_byte _ (by omega)]
    simp [readValue, readVec3_writeVec3 h]
  | vec4 v =>
    simp only [WFValue, WFVec4] at h
    simp only [writeValue, getType, List.cons_append]
    rw [readNext_value_byte _ (by omega)]
    simp [readValue, readVec4_writeVec4 h]
  | box2 v =>
    simp only [WFValue, WFBox2, WFVec2] at h
    simp only [writeValue, getType, List.cons_append]
    rw [readNext_value_byte _ (by omega)]
    have : v.1.1 < 2 ^ 64 ∧ v.1.2 < 2 ^ 64 ∧ v.2.1 < 2 ^ 64 ∧ v.2.2 < 2 ^ 64 :=
      ⟨h.1.1, h.1.2, h.2.1, h.2.2⟩
    simp [readValue, readBox2_writeBox2 this]
  | string v =>
    simp only [WFValue] at h
    simp only [writeValue, getType, List.cons_append]
    rw [readNext_value_byte _ (by omega)]
    simp [readValue, readString_writeString h.1 h.2.2]
  | blob v =>
    simp only [WFValue] at h
    simp only [writeValue, getType, List.cons_append]
    rw [readNext_value_byte _ (by omega)]
    simp [readValue, readBlob_writeBlob h.1]
  | boolArray vs =>
    simp only [WFValue] at h
    simp only [writeValue, getType, List.cons_append]
    rw [readNext_array_byte _ (by omega)]
    simp [readArray, readArrayValues_writeArray readBool writeBool vs h
      fun x _ r => readBool_writeBool x r]
  | intArray vs =>
    simp only [WFValue] at h
    simp only [writeValue, getType, List.cons_append]
    rw [readNext_array_byte _ (by omega)]
    simp [readArray, readArrayValues_writeArray readInt writeInt vs h.1
      fun x hx r => readInt_writeInt (h.2 x hx).1 (h.2 x hx).2 r]
  | doubleArray vs =>
    simp only [WFValue, WFDouble] at h
    simp only [writeValue, getType, List.cons_append]
    rw [readNext_array_byte _ (by omega)]
    simp [readArray, readArrayValues_writeArray readDouble writeDouble vs h.1
      fun x hx r => readDouble_writeDouble (h.2 x hx) r]
  | vec2Array vs =>
    simp only [WFValue, WFVec2] at h
    simp only [writeValue, getType, List.cons_append]
    rw [readNext_array_byte _ (by omega)]
    simp [readArray, readArrayValues_writeArray readVec2 writeVec2 vs h.1
      fun x hx r => readVec2_writeVec2 (h.2 x hx) r]
  | vec3Array vs =>
    simp only [WFValue, WFVec3] at h
    simp only [writeValue, getType, List.cons_append]
    rw [readNext_array_byte _ (by omega)]
    simp [readArray, readArrayValues_writeArray readVec3 writeVec3 vs h.1
      fun x hx r => readVec3_writeVec3 (h.2 x hx) r]
  | vec4Array vs =>
    simp only [WFValue, WFVec4] at h
    simp only [writeValue, getType, List.cons_append]
    rw [readNext_array_byte _ (by omega)]
    simp [readArray, readArrayValues_writeArray readVec4 writeVec4 vs h.1
      fun x hx r => readVec4_writeVec4 (h.2 x hx) r]
  | box2Array vs =>
    simp only [WFValue, WFBox2, WFVec2] at h
    simp only [writeValue, getType, List.cons_append]
    rw [readNext_array_byte _ (by omega)]
    refine Eq.trans ?_ rfl
    simp [readArray, readArrayValues_writeArray readBox2 writeBox2 vs h.1
      fun x hx r => readBox2_writeBox2
        ⟨(h.2 x hx).1.1, (h.2 x hx).1.2, (h.2 x hx).2.1, (h.2 x hx).2.2⟩ r]

end BinaryRT

/-! ## The `Reader` trait (`data/reader.rs`) at the token level

The trait has one primitive, `read_next`, and helpers defined strictly on
top of it.  An abstract token source is modelled as the list of tokens it
still holds; once the list is exhausted, `read_next` yields `EndOfFile`
(as both concrete readers do at end of input). -/

namespace Reader

/-- The `read_next` primitive of an abstract token source. -/
def readNextTok : List Token → Token × List Token
  | [] => (.EndOfFile, [])
  | t :: ts => (t, ts)

/-- The loop of `Reader::skip_to_end` with its `levels` counter.  An
exhausted source behaves as an `EndOfFile` token: at `levels = 0` the loop
breaks successfully, otherwise the stream ended inside an open group and
the result is the `unexpected-end-of-file` error. -/
def skipToEndAux : List Token → Nat → Option (List Token)
  | [], levels => if levels = 0 then some [] else none
  | .Value _ :: ts, levels => skipToEndAux ts levels
  | .Start :: ts, levels => skipToEndAux ts (levels + 1)
  | .End :: ts, levels => if levels = 0 then some ts else skipToEndAux ts (levels - 1)
  | .EndOfFile :: ts, levels => if levels = 0 then some ts else none

/-- `Reader::skip_to_end`. -/
def skipToEnd (ts : List Token) : Option (List Token) :=
  skipToEndAux ts 0

/-- `Reader::expect_start`. -/
def expectStart : List Token → Option (List Token)
  | .Start :: ts => some ts
  | _ => none

/-- `Reader::expect_start_or_end`: `true` when a group was opened; `End`
and `EndOfFile` both yield `false`. -/
def expectStartOrEnd : List Token → Option (Bool × List Token)
  | .Start :: ts => some (true, ts)
  | .End :: ts => some (false, ts)
  | .EndOfFile :: ts => some (false, ts)
  | [] => some (false, [])
  | _ => none

/-- `Reader::expect_tag` (the `expect!` macro at kind `Tag`). -/
def expectTag : List Token → Option (Tag × List Token)
  | .Value (.tag v) :: ts => some (v, ts)
  | _ => none

/-- `Reader::expect_tag_or_end`.  Only a `Tag` value or `End` succeed. -/
def expectTagOrEnd : List Token → Option (Option Tag × List Token)
  | .Value (.tag v) :: ts => some (some v, ts)
  | .End :: ts => some (none, ts)
  | _ => none

/-- `Reader::expect_int`. -/
def expectInt : List Token → Option (Int × List Token)
  | .Value (.int v) :: ts => some (v, ts)
  | _ => none

/-- `Reader::expect_int_or_end`. -/
def expectIntOrEnd : List Token → Option (Option Int × List Token)
  | .Value (.int v) :: ts => some (some v, ts)
  | .End :: ts => some (none, ts)
  | _ => none

/-- `Reader::expect_double_or_end`. -/
def expectDoubleOrEnd : List Token → Option (Option Double × List Token)
  | .Value (.double v) :: ts => some (some v, ts)
  | .End :: ts => some (none, ts)
  | _ => none

/-- `Reader::expect_vec2_or_end`. -/
def expectVec2OrEnd : List Token → Option (Option Vec2 × List Token)
  | .Value (.vec2 v) :: ts => some (some v, ts)
  | .End :: ts => some (none, ts)
  | _ => none

/-- `Reader::expect_vec3`. -/
def expectVec3 : List Token → Option (Vec3 × List Token)
  | .Value (.vec3 v) :: ts => some (v, ts)
  | _ => none

/-- `Reader::expect_vec3_or_end`. -/
def expectVec3OrEnd : List Token → Option (Option Vec3 × List Token)
  | .Value (.vec3 v) :: ts => some (some v, ts)
  | .End :: ts => some (none, ts)
  | _ => none

/-- `Reader::expect_vec4_or_end`. -/
def expectVec4OrEnd : List Token → Option (Option Vec4 × List Token)
  | .Value (.vec4 v) :: ts => some (some v, ts)
  | .End :: ts => some (none, ts)
  | _ => none

/-- `Reader::expect_box2_or_end`. -/
def expectBox2OrEnd : List Token → Option (Option Box2 × List Token)
  | .Value (.box2 v) :: ts => some (some v, ts)
  | .End :: ts => some (none, ts)
  | _ => none

/-- `Reader::expect_string_or_end`. -/
def expectStringOrEnd : List Token → Option (Option (List Nat) × List Token)
  | .Value (.string v) :: ts => some (some v, ts)
  | .End :: ts => some (none, ts)
  | _ => none

/-- `Reader::expect_vec2_array`. -/
def expectVec2Array : List Token → Option (List Vec2 × List Token)
  | .Value (.vec2Array v) :: ts => some (v, ts)
  | _ => none

/-- `Reader::expect_double_array`. -/
def expectDoubleArray : List Token → Option (List Double × List Token)
  | .Value (.doubleArray v) :: ts => some (v, ts)
  | _ => none

/-- A balanced stretch of token stream: a sequence of complete items, each
a value or a `Start … End` group with balanced interior (§3.2 of the spec:
every `Start` matched by an `End`; no stray `End` or `EndOfFile`). -/
inductive Bal : List Token → Prop
  | nil : Bal []
  | val (v : Value) {ts : List Token} : Bal ts → Bal (.Value v :: ts)
  | grp {inner ts : List Token} : Bal inner → Bal ts →
      Bal (.Start :: inner ++ .End :: ts)

/-- Consuming a balanced stretch leaves `skip_to_end` exactly where it
would be without that stretch, at every nesting level. -/
theorem skipToEndAux_bal {inner : List Token} (h : Bal inner) :
    ∀ rest levels, skipToEndAux (inner ++ rest) levels = skipToEndAux rest levels := by
  induction h with
  | nil => intro rest levels; rfl
  | val v _ ih =>
    intro rest levels
    simpa [skipToEndAux] using ih rest levels
  | grp _ _ ih1 ih2 =>
    rename_i inner1 ts1 _ _
    intro rest levels
    rw [show (Token.Start :: inner1 ++ Token.End :: ts1) ++ rest =
      Token.Start :: (inner1 ++ (Token.End :: (ts1 ++ rest))) by simp]
    rw [skipToEndAux, ih1 (Token.End :: (ts1 ++ rest)) (levels + 1), skipToEndAux,
      if_neg (fun hE => by omega)]
    simpa using ih2 rest levels

end Reader

/-! ## Scene nodes (`widget/mod.rs`, `model/mod.rs`)

The five node variants, their serialization to tokens (`write`), and the
in-place patch routine (`update` / `update_children`).  Namespaced under
`Scene` to keep the source names (`Path` would otherwise collide with
Mathlib).  Update functions return their final state next to the
continuation (`none` = error), mirroring `&mut self` plus `io::Result`. -/

namespace Scene

/-- The `tag!` macro: four character codes packed big-endian. -/
def mkTag (a b c d : Nat) : Nat := ((a * 256 + b) * 256 + c) * 256 + d

def WIDGET : Tag := mkTag 87 68 71 84
def GROUP : Tag := mkTag 71 82 85 80
def GRID : Tag := mkTag 71 82 73 68
def MODEL : Tag := mkTag 77 79 68 76
def TEXT : Tag := mkTag 84 69 88 84
def DOWN : Tag := mkTag 68 79 87 78
def UP : Tag := mkTag 85 80 95 95
def MOTION : Tag := mkTag 77 79 84 78
def KEY : Tag := mkTag 75 69 89 95
def KEYBOARD_FOCUS_LOST : Tag := mkTag 75 76 83 84
def SHAPE : Tag := mkTag 83 72 65 80
def PATHS : Tag := mkTag 80 84 72 83
def COLOUR : Tag := mkTag 67 79 76 82
def POINTS : Tag := mkTag 80 78 84 83

/-- `enum EventType` (`widget/mod.rs`). -/
inductive EventType where
  | Down
  | Up
  | Motion
  | Key
  | Text
  | KeyboardFocusLost
deriving DecidableEq, Repr

/-- `EventType::write`: the tag emitted for each event type. -/
def EventType.tagOf : EventType → Tag
  | .Down => DOWN
  | .Up => UP
  | .Motion => MOTION
  | .Key => KEY
  | .Text => TEXT
  | .KeyboardFocusLost => KEYBOARD_FOCUS_LOST

/-- `EventType::from_tag`. -/
def EventType.fromTag (tag : Tag) : Option EventType :=
  if tag = DOWN then some .Down
  else if tag = UP then some .Up
  else if tag = MOTION then some .Motion
  else if tag = KEY then some .Key
  else if tag = TEXT then some .Text
  else if tag = KEYBOARD_FOCUS_LOST then some .KeyboardFocusLost
  else none

/-- `struct Point` (`model/mod.rs`). -/
structure Point where
  location : Vec2
  curveBias : Double
deriving DecidableEq, Repr

/-- `struct Path` (`model/mod.rs`). -/
structure Path where
  colour : Vec3
  points : List Point
deriving DecidableEq, Repr

/-- `struct Model` (`model/mod.rs`). -/
structure Model where
  paths : List Path
deriving DecidableEq, Repr

/-- `struct Grid` (`widget/mod.rs`). -/
structure Grid where
  bounds : Box2
  size : Vec2
  offset : Vec2
  colour : Vec3
deriving DecidableEq, Repr

/-- `struct Text` (`widget/mod.rs`). -/
structure Text where
  location : Vec2
  size : Double
  colour : Vec3
  value : List Nat
deriving DecidableEq, Repr

/-- The scalar fields of `struct Widget` (`widget/mod.rs`), the part
`update_attrs` operates on. -/
structure WidgetAttrs where
  location : Vec2
  size : Vec2
  fillColour : Vec4
  borderColour : Vec3
  borderWidth : Int
deriving DecidableEq, Repr

mutual
/-- `enum Element` (`widget/mod.rs`); a `Widget` is its attrs, bindings
and children. -/
inductive Element where
  | Widget (attrs : WidgetAttrs) (bindings : List (EventType × Int)) (children : ElemList)
  | Group (location : Vec2) (children : ElemList)
  | Grid (grid : Grid)
  | Model (location : Vec2) (scale : Double) (model : Model)
  | Text (text : Text)
deriving Repr

/-- `Vec<Element>` as a mutual inductive, so structural recursion over the
tree is available. -/
inductive ElemList where
  | nil
  | cons (e : Element) (es : ElemList)
deriving Repr
end

def ElemList.length : ElemList → Nat
  | .nil => 0
  | .cons _ es => 1 + es.length

def ElemList.append : ElemList → ElemList → ElemList
  | .nil, ys => ys
  | .cons x xs, ys => .cons x (xs.append ys)

def ElemList.headE : ElemList → Option Element
  | .nil => none
  | .cons e _ => some e

def ElemList.tailE : ElemList → ElemList
  | .nil => .nil
  | .cons _ es => es

/-- `Default` for the widget scalar fields (all zeroes). -/
def defaultWidgetAttrs : WidgetAttrs :=
  ⟨(0, 0), (0, 0), (0, 0, 0, 0), (0, 0, 0), 0⟩

/-- `Widget: Default` (derived). -/
def defaultWidget : Element := .Widget defaultWidgetAttrs [] .nil

/-- `Group: Default` (derived). -/
def defaultGroup : Element := .Group (0, 0) .nil

/-- `Grid: Default` (derived). -/
def defaultGrid : Grid := ⟨((0, 0), (0, 0)), (0, 0), (0, 0), (0, 0, 0)⟩

/-- `impl Default for ModelElement`. -/
def defaultModelElement : Element := .Model (0, 0) 0 ⟨[]⟩

/-- `Text: Default` (derived). -/
def defaultText : Text := ⟨(0, 0), 0, (0, 0, 0), []⟩

/-- `self.paths.len() as i32` in `Model::write`: the `usize → i32` cast
(two's complement wrap). -/
def intCast32 (n : Nat) : Int :=
  if n % 2 ^ 32 < 2 ^ 31 then (n % 2 ^ 32 : Nat) else (n % 2 ^ 32 : Nat) - 2 ^ 32

/-- `Path::write`: a group holding a `COLR` group and a `PNTS` group. -/
def Path.write (p : Path) : List Token :=
  [.Start,
   .Start, .Value (.tag COLOUR), .Value (.vec3 p.colour), .End,
   .Start, .Value (.tag POINTS),
   .Value (.vec2Array (p.points.map Point.location)),
   .Value (.doubleArray (p.points.map Point.curveBias)), .End,
   .End]

/-- `Model::write` after its opening `Start`. -/
def Model.writeInterior (m : Model) : List Token :=
  [.Value (.tag SHAPE), .Start, .Value (.tag PATHS),
   .Value (.int (intCast32 m.paths.length))] ++
  (m.paths.map Path.write).flatten ++ [.End, .End]

/-- `Model::write`. -/
def Model.write (m : Model) : List Token :=
  .Start :: m.writeInterior

/-- The body of `Widget::write`'s bindings group. -/
def writeBindings (bs : List (EventType × Int)) : List Token :=
  (bs.map fun (event, binding) =>
    [Token.Value (.tag event.tagOf), Token.Value (.int binding)]).flatten

/-- The attrs group content of `Widget::write` (between the group's `Start`
and its `End`): location, size, fill colour, then the border sub-group,
empty unless `border_width > 0`. -/
def writeAttrsInterior (a : WidgetAttrs) : List Token :=
  [.Value (.vec2 a.location), .Value (.vec2 a.size), .Value (.vec4 a.fillColour),
   .Start] ++
  (if a.borderWidth > 0 then
    [Token.Value (.int a.borderWidth), Token.Value (.vec3 a.borderColour)]
   else []) ++ [.End, .End]

/-- The tag a node writes and the patch dispatches on. -/
def Element.tagOfE : Element → Tag
  | .Widget _ _ _ => WIDGET
  | .Group _ _ => GROUP
  | .Grid _ => GRID
  | .Model _ _ _ => MODEL
  | .Text _ => TEXT

mutual
/-- `Element::write` minus the opening `Start` and kind tag: exactly the
tokens the matching `update` consumes (through the node's closing `End`). -/
def Element.writeInterior : Element → List Token
  | .Widget attrs bindings children =>
    .Start :: writeAttrsInterior attrs ++
    [.Start] ++ writeBindings bindings ++ [.End] ++
    [.Start] ++ children.write ++ [.End] ++ [.End]
  | .Group location children =>
    [.Value (.vec2 location), .Start] ++ children.write ++ [.End, .End]
  | .Grid g =>
    [.Value (.box2 g.bounds), .Value (.vec2 g.size), .Value (.vec2 g.offset),
     .Value (.vec3 g.colour), .End]
  | .Model location scale m =>
    [.Value (.vec2 location), .Value (.double scale)] ++ Model.write m ++ [.End]
  | .Text t =>
    [.Value (.vec2 t.location), .Value (.double t.size), .Value (.vec3 t.colour),
     .Value (.string t.value), .End]

/-- The concatenation of `Element::write` over a children list. -/
def ElemList.write : ElemList → List Token
  | .nil => []
  | .cons e es =>
    (Token.Start :: Token.Value (.tag e.tagOfE) :: e.writeInterior) ++ es.write
end

/-- `Element::write`: a group opened with the kind tag. -/
def Element.write (e : Element) : List Token :=
  Token.Start :: Token.Value (.tag e.tagOfE) :: e.writeInterior

/-- Same constructor (the patch routine reuses the node in place only
when the incoming kind matches). -/
def sameKind : Element → Element → Bool
  | .Widget _ _ _, .Widget _ _ _ => true
  | .Group _ _, .Group _ _ => true
  | .Grid _, .Grid _ => true
  | .Model _ _ _, .Model _ _ _ => true
  | .Text _, .Text _ => true
  | _, _ => false

/-- The default-constructed node of the same variant, used by the patch on
a kind mismatch or when appending. -/
def defaultOfKind : Element → Element
  | .Widget _ _ _ => defaultWidget
  | .Group _ _ => defaultGroup
  | .Grid _ => .Grid defaultGrid
  | .Model _ _ _ => defaultModelElement
  | .Text _ => .Text defaultText

/-- What `update_attrs` leaves in the widget when fed the serialized attrs
group of `a`: every field of `a`, except that an absent border group
(`a.borderWidth ≤ 0` on wire) resets the width to 0 and leaves the
previous border colour in place. -/
def patchAttrs (old a : WidgetAttrs) : WidgetAttrs :=
  { location := a.location
    size := a.size
    fillColour := a.fillColour
    borderWidth := if a.borderWidth > 0 then a.borderWidth else 0
    borderColour := if a.borderWidth > 0 then a.borderColour else old.borderColour }

mutual
/-- The tree produced by patching node `c` (same variant as `e`) with the
serialized form of `e`. -/
def patchSame : Element → Element → Element
  | .Widget a₁ _ c₁, .Widget a₂ b₂ c₂ => .Widget (patchAttrs a₁ a₂) b₂ (patchEs c₁ c₂)
  | .Group _ c₁, .Group l c₂ => .Group l (patchEs c₁ c₂)
  | _, e => e

/-- The children list produced by `update_children`: positional patching
with truncation to the incoming length. -/
def patchEs : ElemList → ElemList → ElemList
  | _, .nil => .nil
  | old, .cons e es =>
    .cons (patchSame
      (match old.headE with
       | some c => if sameKind c e then c else defaultOfKind e
       | none => defaultOfKind e) e)
      (patchEs old.tailE es)
end

/-- One slot of `update_children`: the existing child (when any) patched
with one incoming child description. -/
def patchOne (c : Option Element) (e : Element) : Element :=
  patchSame
    (match c with
     | some c => if sameKind c e then c else defaultOfKind e
     | none => defaultOfKind e) e

end Scene

namespace Scene

open Reader

/-- `Widget::update_attrs`.  Each optional slot is read with an
`expect_*_or_end`; `End` leaves the remaining fields untouched.  The border
sub-group carries the width and optionally the colour; an empty border
group resets the width to 0. -/
def updateAttrs (w : WidgetAttrs) (ts : List Token) :
    WidgetAttrs × Option (List Token) :=
  match expectVec2OrEnd ts with
  | none => (w, none)
  | some (none, ts) => (w, some ts)
  | some (some location, ts) =>
    let w := { w with location := location }
    match expectVec2OrEnd ts with
    | none => (w, none)
    | some (none, ts) => (w, some ts)
    | some (some size, ts) =>
      let w := { w with size := size }
      match expectVec4OrEnd ts with
      | none => (w, none)
      | some (none, ts) => (w, some ts)
      | some (some fillColour, ts) =>
        let w := { w with fillColour := fillColour }
        match expectStartOrEnd ts with
        | none => (w, none)
        | some (false, ts) => (w, some ts)
        | some (true, ts) =>
          match expectIntOrEnd ts with
          | none => (w, none)
          | some (some borderWidth, ts) =>
            let w := { w with borderWidth := borderWidth }
            match expectVec3OrEnd ts with
            | none => (w, none)
            | some (some borderColour, ts) =>
              let w := { w with borderColour := borderColour }
              match skipToEnd ts with
              | none => (w, none)
              | some ts =>
                match skipToEnd ts with
                | none => (w, none)
                | some ts => (w, some ts)
            | some (none, ts) =>
              match skipToEnd ts with
              | none => (w, none)
              | some ts => (w, some ts)
          | some (none, ts) =>
            let w := { w with borderWidth := 0 }
            match skipToEnd ts with
            | none => (w, none)
            | some ts => (w, some ts)

/-- The `while let` loop of `Widget::update_bindings`, carrying the pairs
pushed so far.  `expect_tag_or_end` and `expect_int` are inlined as token
patterns (an exhausted stream reads as `EndOfFile`, which both reject). -/
def updateBindingsLoop (acc : List (EventType × Int)) :
    List Token → List (EventType × Int) × Option (List Token)
  | .Value (.tag tag) :: ts =>
    match EventType.fromTag tag with
    | some event =>
      match ts with
      | .Value (.int binding) :: ts => updateBindingsLoop (acc ++ [(event, binding)]) ts
      | _ => (acc, none)
    | none => (acc, none)
  | .End :: ts => (acc, some ts)
  | _ => (acc, none)

/-- `Widget::update_bindings`: `self.bindings.clear()` then the refill
loop.  The first component is the bindings list as left in the widget —
on an error part-way through, the partially refilled list. -/
def updateBindings (ts : List Token) :
    List (EventType × Int) × Option (List Token) :=
  updateBindingsLoop [] ts

/-- `read_colour` (`model/mod.rs`). -/
def readColour (ts : List Token) : Option (Vec3 × List Token) :=
  match expectVec3 ts with
  | none => none
  | some (colour, ts) =>
    match skipToEnd ts with
    | none => none
    | some ts => some (colour, ts)

/-- `read_points` (`model/mod.rs`): the `Vec2Array` of locations and the
`DoubleArray` of curve biases, zipped into `Point`s. -/
def readPoints (ts : List Token) : Option (List Point × List Token) :=
  match expectVec2Array ts with
  | none => none
  | some (locations, ts) =>
    match expectDoubleArray ts with
    | none => none
    | some (biases, ts) =>
      match skipToEnd ts with
      | none => none
      | some ts =>
        some ((locations.zip biases).map fun (l, b) => Point.mk l b, ts)

/-- The sub-group loop of `Path::read`, on an iteration budget (the source
loop terminates by consuming tokens; every theorem below supplies enough
budget for the streams it touches). -/
def pathReadLoop : Nat → Option Vec3 → Option (List Point) → List Token →
    Option (Path × List Token)
  | 0, _, _, _ => none
  | fuel + 1, colour, points, ts =>
    match expectStartOrEnd ts with
    | none => none
    | some (false, ts) =>
      match colour, points with
      | some c, some p => some (⟨c, p⟩, ts)
      | _, _ => none
    | some (true, ts) =>
      match expectTag ts with
      | none => none
      | some (tag, ts) =>
        if tag = COLOUR then
          match readColour ts with
          | none => none
          | some (c, ts) => pathReadLoop fuel (some c) points ts
        else if tag = POINTS then
          match readPoints ts with
          | none => none
          | some (p, ts) => pathReadLoop fuel colour (some p) ts
        else
          match skipToEnd ts with
          | none => none
          | some ts => pathReadLoop fuel colour points ts

/-- `Path::read`. -/
def Path.read (fuel : Nat) (ts : List Token) : Option (Path × List Token) :=
  match expectStart ts with
  | none => none
  | some ts => pathReadLoop fuel none none ts

/-- The `for _ in 0..count` loop of `read_paths`. -/
def readPathsLoop (fuel : Nat) : Nat → List Token → Option (List Path × List Token)
  | 0, ts => some ([], ts)
  | k + 1, ts =>
    match Path.read fuel ts with
    | none => none
    | some (path, ts) =>
      match readPathsLoop fuel k ts with
      | none => none
      | some (paths, ts) => some (path :: paths, ts)

/-- `read_paths` (`model/mod.rs`): the path count, that many paths, then a
`skip_to_end` for the `PTHS` group.  A non-positive `i32` count runs the
loop zero times. -/
def readPaths (fuel : Nat) (ts : List Token) : Option (List Path × List Token) :=
  match expectInt ts with
  | none => none
  | some (count, ts) =>
    match readPathsLoop fuel count.toNat ts with
    | none => none
    | some (paths, ts) =>
      match skipToEnd ts with
      | none => none
      | some ts => some (paths, ts)

/-- The sub-group loop of `Model::read_started`, with the `paths` option
it fills in. -/
def readStartedLoop : Nat → Option (List Path) → List Token →
    Option (Model × List Token)
  | 0, _, _ => none
  | fuel + 1, paths, ts =>
    match expectStartOrEnd ts with
    | none => none
    | some (false, ts) =>
      match paths with
      | some paths => some (⟨paths⟩, ts)
      | none => none
    | some (true, ts) =>
      match expectTag ts with
      | none => none
      | some (tag, ts) =>
        if tag = PATHS then
          match readPaths fuel ts with
          | none => none
          | some (ps, ts) => readStartedLoop fuel (some ps) ts
        else
          match skipToEnd ts with
          | none => none
          | some ts => readStartedLoop fuel paths ts

/-- `Model::read_started`: the kind tag must be `SHAP`, then sub-groups. -/
def Model.readStarted (fuel : Nat) (ts : List Token) : Option (Model × List Token) :=
  match expectTag ts with
  | none => none
  | some (tag, ts) =>
    if tag = SHAPE then readStartedLoop fuel none ts else none

/-- `Grid::update`: four optional scalar slots, then `skip_to_end`. -/
def Grid.update (g : Grid) (ts : List Token) : Grid × Option (List Token) :=
  match expectBox2OrEnd ts with
  | none => (g, none)
  | some (none, ts) => (g, some ts)
  | some (some bounds, ts) =>
    let g := { g with bounds := bounds }
    match expectVec2OrEnd ts with
    | none => (g, none)
    | some (none, ts) => (g, some ts)
    | some (some size, ts) =>
      let g := { g with size := size }
      match expectVec2OrEnd ts with
      | none => (g, none)
      | some (none, ts) => (g, some ts)
      | some (some offset, ts) =>
        let g := { g with offset := offset }
        match expectVec3OrEnd ts with
        | none => (g, none)
        | some (none, ts) => (g, some ts)
        | some (some colour, ts) =>
          let g := { g with colour := colour }
          match skipToEnd ts with
          | none => (g, none)
          | some ts => (g, some ts)

/-- `Text::update`. -/
def Text.update (t : Text) (ts : List Token) : Text × Option (List Token) :=
  match expectVec2OrEnd ts with
  | none => (t, none)
  | some (none, ts) => (t, some ts)
  | some (some location, ts) =>
    let t := { t with location := location }
    match expectDoubleOrEnd ts with
    | none => (t, none)
    | some (none, ts) => (t, some ts)
    | some (some size, ts) =>
      let t := { t with size := size }
      match expectVec3OrEnd ts with
      | none => (t, none)
      | some (none, ts) => (t, some ts)
      | some (some colour, ts) =>
        let t := { t with colour := colour }
        match expectStringOrEnd ts with
        | none => (t, none)
        | some (none, ts) => (t, some ts)
        | some (some value, ts) =>
          let t := { t with value := value }
          match skipToEnd ts with
          | none => (t, none)
          | some ts => (t, some ts)

/-- `ModelElement::update`: two scalar slots, then an optional `Shape`
group that fully replaces the model (`self.model = try!(Model::read_started(..))`
leaves the old model in place on error), then `skip_to_end`. -/
def ModelElement.update (fuel : Nat) (location : Vec2) (scale : Double)
    (model : Model) (ts : List Token) :
    (Vec2 × Double × Model) × Option (List Token) :=
  match expectVec2OrEnd ts with
  | none => ((location, scale, model), none)
  | some (none, ts) => ((location, scale, model), some ts)
  | some (some location, ts) =>
    match expectDoubleOrEnd ts with
    | none => ((location, scale, model), none)
    | some (none, ts) => ((location, scale, model), some ts)
    | some (some scale, ts) =>
      match expectStartOrEnd ts with
      | none => ((location, scale, model), none)
      | some (false, ts) => ((location, scale, model), some ts)
      | some (true, ts) =>
        match Model.readStarted fuel ts with
        | none => ((location, scale, model), none)
        | some (model, ts) =>
          match skipToEnd ts with
          | none => ((location, scale, model), none)
          | some ts => ((location, scale, model), some ts)

mutual
/-- `Widget::update` on the widget's three components.  The budget
decreases on every mutually recursive call; every theorem below supplies
enough for the streams it touches, so on those streams this is exactly the
source routine. -/
def Widget.update : Nat → WidgetAttrs → List (EventType × Int) → ElemList →
    List Token → (WidgetAttrs × List (EventType × Int) × ElemList) × Option (List Token)
  | 0, a, b, c, _ => ((a, b, c), none)
  | fuel + 1, a, b, c, ts =>
    match expectStartOrEnd ts with
    | none => ((a, b, c), none)
    | some (false, ts) => ((a, b, c), some ts)
    | some (true, ts) =>
      match updateAttrs a ts with
      | (a, none) => ((a, b, c), none)
      | (a, some ts) =>
        match expectStartOrEnd ts with
        | none => ((a, b, c), none)
        | some (false, ts) => ((a, b, c), some ts)
        | some (true, ts) =>
          match updateBindings ts with
          | (b, none) => ((a, b, c), none)
          | (b, some ts) =>
            match expectStartOrEnd ts with
            | none => ((a, b, c), none)
            | some (false, ts) => ((a, b, c), some ts)
            | some (true, ts) =>
              match updateChildrenLoop fuel .nil c ts with
              | (c, none) => ((a, b, c), none)
              | (c, some ts) =>
                match skipToEnd ts with
                | none => ((a, b, c), none)
                | some ts => ((a, b, c), some ts)

/-- `Group::update`. -/
def Group.update : Nat → Vec2 → ElemList → List Token →
    (Vec2 × ElemList) × Option (List Token)
  | 0, l, c, _ => ((l, c), none)
  | fuel + 1, l, c, ts =>
    match expectVec2OrEnd ts with
    | none => ((l, c), none)
    | some (none, ts) => ((l, c), some ts)
    | some (some l, ts) =>
      match expectStartOrEnd ts with
      | none => ((l, c), none)
      | some (false, ts) => ((l, c), some ts)
      | some (true, ts) =>
        match updateChildrenLoop fuel .nil c ts with
        | (c, none) => ((l, c), none)
        | (c, some ts) =>
          match skipToEnd ts with
          | none => ((l, c), none)
          | some ts => ((l, c), some ts)

/-- The per-child dispatch of `update_children`: on a variant match the
existing child is updated in place; otherwise a default-constructed node
of the incoming kind is populated and, only on success, becomes the slot
content (on error the slot keeps the previous child).  The first result
component is what the slot holds after the call. -/
def dispatchChild : Nat → Tag → Option Element → List Token →
    Element × Option (List Token)
  | 0, _, c, _ => (c.getD defaultWidget, none)
  | fuel + 1, tag, c, ts =>
    if tag = WIDGET then
      match c with
      | some (.Widget a b ch) =>
        match Widget.update fuel a b ch ts with
        | ((a, b, ch), r) => (.Widget a b ch, r)
      | _ =>
        match Widget.update fuel defaultWidgetAttrs [] .nil ts with
        | (_, none) => (c.getD defaultWidget, none)
        | (st, some ts) => (.Widget st.1 st.2.1 st.2.2, some ts)
    else if tag = GROUP then
      match c with
      | some (.Group l ch) =>
        match Group.update fuel l ch ts with
        | ((l, ch), r) => (.Group l ch, r)
      | _ =>
        match Group.update fuel (0, 0) .nil ts with
        | (_, none) => (c.getD defaultGroup, none)
        | (st, some ts) => (.Group st.1 st.2, some ts)
    else if tag = GRID then
      match c with
      | some (.Grid g) =>
        match Grid.update g ts with
        | (g, r) => (.Grid g, r)
      | _ =>
        match Grid.update defaultGrid ts with
        | (_, none) => (c.getD (.Grid defaultGrid), none)
        | (g, some ts) => (.Grid g, some ts)
    else if tag = MODEL then
      match c with
      | some (.Model l s m) =>
        match ModelElement.update fuel l s m ts with
        | ((l, s, m), r) => (.Model l s m, r)
      | _ =>
        match ModelElement.update fuel (0, 0) 0 ⟨[]⟩ ts with
        | (_, none) => (c.getD defaultModelElement, none)
        | (st, some ts) => (.Model st.1 st.2.1 st.2.2, some ts)
    else if tag = TEXT then
      match c with
      | some (.Text t) =>
        match Text.update t ts with
        | (t, r) => (.Text t, r)
      | _ =>
        match Text.update defaultText ts with
        | (_, none) => (c.getD (.Text defaultText), none)
        | (t, some ts) => (.Text t, some ts)
    else (c.getD defaultWidget, none)

/-- The `while expect_start_or_end` loop of `update_children`, carrying
the already-patched prefix (`done`, positions below `i`) and the remaining
existing children (`old`).  On the closing `End` the surplus `old` is
dropped — the source's `while children.len() > i { children.pop(); }`.  On
an error the list is reassembled exactly as the mutations left it. -/
def updateChildrenLoop : Nat → ElemList → ElemList → List Token →
    ElemList × Option (List Token)
  | 0, done, old, _ => (done.append old, none)
  | fuel + 1, done, old, ts =>
    match expectStartOrEnd ts with
    | none => (done.append old, none)
    | some (false, ts) => (done, some ts)
    | some (true, ts) =>
      match expectTag ts with
      | none => (done.append old, none)
      | some (tag, ts) =>
        match old with
        | .cons c cs =>
          match dispatchChild fuel tag (some c) ts with
          | (child, none) => (done.append (.cons child cs), none)
          | (child, some ts) =>
            updateChildrenLoop fuel (done.append (.cons child .nil)) cs ts
        | .nil =>
          match dispatchChild fuel tag none ts with
          | (_, none) => (done, none)
          | (child, some ts) =>
            updateChildrenLoop fuel (done.append (.cons child .nil)) .nil ts
end

/-- `update_children` (`widget/mod.rs`): the loop started at `i = 0`. -/
def updateChildren (fuel : Nat) (children : ElemList) (ts : List Token) :
    ElemList × Option (List Token) :=
  updateChildrenLoop fuel .nil children ts

end Scene

namespace Scene

mutual
/-- Structural size, the measure for tree inductions. -/
def Element.szE : Element → Nat
  | .Widget _ _ children => 1 + children.szEs
  | .Group _ children => 1 + children.szEs
  | .Grid _ => 1
  | .Model _ _ _ => 1
  | .Text _ => 1

def ElemList.szEs : ElemList → Nat
  | .nil => 1
  | .cons e es => 1 + e.szE + es.szEs
end

mutual
/-- Well-formedness of a tree for serialization: every embedded model has
fewer than `2 ^ 31` paths, so `paths.len() as i32` does not wrap. -/
def Element.wfE : Element → Bool
  | .Widget _ _ children => children.wfEs
  | .Group _ children => children.wfEs
  | .Grid _ => true
  | .Model _ _ m => decide (m.paths.length < 2 ^ 31)
  | .Text _ => true

def ElemList.wfEs : ElemList → Bool
  | .nil => true
  | .cons e es => e.wfE && es.wfEs
end

mutual
/-- A sufficient recursion budget for patching the serialized form of a
tree (the budget decreases once per child hop and once per node entry;
model reading needs a small constant). -/
def Element.nE : Element → Nat
  | .Widget _ _ children => 2 + children.nEs
  | .Group _ children => 2 + children.nEs
  | .Grid _ => 2
  | .Model _ _ _ => 16
  | .Text _ => 2

def ElemList.nEs : ElemList → Nat
  | .nil => 1
  | .cons e es => 1 + e.nE + es.nEs
end

theorem ElemList.append_nil : (xs : ElemList) → xs.append .nil = xs
  | .nil => rfl
  | .cons x xs => by rw [ElemList.append, append_nil xs]

theorem ElemList.append_assoc : (xs ys zs : ElemList) →
    (xs.append ys).append zs = xs.append (ys.append zs)
  | .nil, _, _ => rfl
  | .cons x xs, ys, zs => by
    rw [ElemList.append, ElemList.append, ElemList.append, append_assoc xs ys zs]

theorem ElemList.length_append : (xs ys : ElemList) →
    (xs.append ys).length = xs.length + ys.length
  | .nil, ys => by rw [ElemList.append, ElemList.length]; omega
  | .cons x xs, ys => by
    rw [ElemList.append, ElemList.length, ElemList.length, length_append xs ys]
    omega

theorem szE_pos (b : Element) : 1 ≤ b.szE := by
  cases b <;> simp [Element.szE]

theorem szEs_pos (es : ElemList) : 1 ≤ es.szEs := by
  cases es with
  | nil => rw [ElemList.szEs]
  | cons e es => rw [ElemList.szEs]; omega

/-- `patchEs` on a cons incoming list, phrased with `patchOne`. -/
theorem patchEs_cons (old : ElemList) (e : Element) (es : ElemList) :
    patchEs old (.cons e es) =
      .cons (patchOne old.headE e) (patchEs old.tailE es) := by
  cases old <;> rfl

/-- The patched children list always has the incoming length. -/
theorem patchEs_length : (es : ElemList) → ∀ old : ElemList,
    (patchEs old es).length = es.length
  | .nil, old => rfl
  | .cons e es, old => by
    rw [patchEs_cons, ElemList.length, ElemList.length, patchEs_length es old.tailE]

end Scene

namespace Scene

open Reader

/-- `update_attrs` на the serialized attrs group recovers exactly
`patchAttrs`. -/
theorem updateAttrs_write (old a : WidgetAttrs) (rest : List Token) :
    updateAttrs old (writeAttrsInterior a ++ rest) = (patchAttrs old a, some rest) := by
  rcases lt_or_ge 0 a.borderWidth with h | h
  · simp [writeAttrsInterior, if_pos h, updateAttrs, expectVec2OrEnd, expectVec4OrEnd,
      expectStartOrEnd, expectIntOrEnd, expectVec3OrEnd, skipToEnd, skipToEndAux,
      patchAttrs, h]
  · have h' : ¬ a.borderWidth > 0 := by omega
    simp [writeAttrsInterior, if_neg h', updateAttrs, expectVec2OrEnd, expectVec4OrEnd,
      expectStartOrEnd, expectIntOrEnd, skipToEnd, skipToEndAux, patchAttrs, h']

/-- The bindings loop on a serialized bindings group appends exactly the
written pairs. -/
theorem updateBindingsLoop_write (bs : List (EventType × Int)) :
    ∀ acc rest, updateBindingsLoop acc (writeBindings bs ++ .End :: rest) =
      (acc ++ bs, some rest) := by
  induction bs with
  | nil => intro acc rest; simp [writeBindings, updateBindingsLoop]
  | cons p bs ih =>
    intro acc rest
    obtain ⟨event, binding⟩ := p
    have htag : EventType.fromTag event.tagOf = some event := by
      cases event <;> rfl
    simp only [writeBindings, List.map_cons, List.flatten_cons, List.cons_append,
      List.append_assoc, List.nil_append]
    rw [updateBindingsLoop, htag]
    dsimp only
    have := ih (acc ++ [(event, binding)]) rest
    simp only [writeBindings] at this
    rw [this]
    simp

/-- `update_bindings` fully replaces the list with the written pairs. -/
theorem updateBindings_write (bs : List (EventType × Int)) (rest : List Token) :
    updateBindings (writeBindings bs ++ .End :: rest) = (bs, some rest) := by
  rw [updateBindings, updateBindingsLoop_write bs [] rest]
  simp

/-- `Grid::update` on a serialized grid interior replaces all four fields. -/
theorem gridUpdate_write (g₀ g : Grid) (rest : List Token) :
    Grid.update g₀ (Element.writeInterior (.Grid g) ++ rest) = (g, some rest) := by
  simp [Element.writeInterior, Grid.update, expectBox2OrEnd, expectVec2OrEnd,
    expectVec3OrEnd, skipToEnd, skipToEndAux]

/-- `Text::update` on a serialized text interior replaces all four fields. -/
theorem textUpdate_write (t₀ t : Text) (rest : List Token) :
    Text.update t₀ (Element.writeInterior (.Text t) ++ rest) = (t, some rest) := by
  simp [Element.writeInterior, Text.update, expectVec2OrEnd, expectDoubleOrEnd,
    expectVec3OrEnd, expectStringOrEnd, skipToEnd, skipToEndAux]

/-- `read_colour` on a written `COLR` group body. -/
theorem readColour_write (c : Vec3) (rest : List Token) :
    readColour (.Value (.vec3 c) :: .End :: rest) = some (c, rest) := rfl

/-- Zipping the two written arrays back into points is the identity. -/
theorem zip_points (points : List Point) :
    ((points.map Point.location).zip (points.map Point.curveBias)).map
      (fun (l, b) => Point.mk l b) = points := by
  induction points with
  | nil => rfl
  | cons p ps ih => simp [ih]

/-- `read_points` on a written `PNTS` group body recovers the points. -/
theorem readPoints_write (points : List Point) (rest : List Token) :
    readPoints (.Value (.vec2Array (points.map Point.location)) ::
      .Value (.doubleArray (points.map Point.curveBias)) :: .End :: rest) =
      some (points, rest) := by
  simp [readPoints, expectVec2Array, expectDoubleArray, skipToEnd, skipToEndAux,
    zip_points]

/-- `Path::read` on a written path group. -/
theorem pathRead_write (p : Path) (fuel : Nat) (h : 3 ≤ fuel) (rest : List Token) :
    Path.read fuel (Path.write p ++ rest) = some (p, rest) := by
  obtain ⟨k, rfl⟩ : ∃ k, fuel = k + 3 := ⟨fuel - 3, by omega⟩
  simp only [Path.write, Path.read, List.cons_append, List.nil_append, expectStart]
  rw [pathReadLoop]
  dsimp only [expectStartOrEnd, expectTag]
  rw [if_pos rfl, readColour_write]
  dsimp only
  rw [pathReadLoop]
  dsimp only [expectStartOrEnd, expectTag]
  rw [if_neg (by decide), if_pos rfl, readPoints_write p.points (.End :: rest)]
  dsimp only
  rw [pathReadLoop]
  dsimp only [expectStartOrEnd]

end Scene

namespace Scene

open Reader

theorem intCast32_toNat {n : Nat} (h : n < 2 ^ 31) : (intCast32 n).toNat = n := by
  rw [intCast32, if_pos (by omega : n % 2 ^ 32 < 2 ^ 31)]
  omega

/-- The path loop on the concatenation of written paths. -/
theorem readPathsLoop_write (ps : List Path) :
    ∀ fuel rest, 3 ≤ fuel →
    readPathsLoop fuel ps.length ((ps.map Path.write).flatten ++ rest) =
      some (ps, rest) := by
  induction ps with
  | nil => intro fuel rest _; simp [readPathsLoop]
  | cons p ps ih =>
    intro fuel rest hf
    simp only [List.map_cons, List.flatten_cons, List.length_cons, List.append_assoc]
    rw [readPathsLoop, pathRead_write p fuel hf]
    dsimp only
    rw [ih fuel rest hf]

/-- `read_paths` on the written `PTHS` group body. -/
theorem readPaths_write (ps : List Path) (fuel : Nat) (hf : 3 ≤ fuel)
    (hlen : ps.length < 2 ^ 31) (rest : List Token) :
    readPaths fuel (.Value (.int (intCast32 ps.length)) ::
      ((ps.map Path.write).flatten ++ .End :: rest)) = some (ps, rest) := by
  rw [readPaths]
  dsimp only [expectInt]
  rw [intCast32_toNat hlen]
  rw [show (ps.map Path.write).flatten ++ .End :: rest =
    (ps.map Path.write).flatten ++ (.End :: rest) from rfl]
  rw [readPathsLoop_write ps fuel (.End :: rest) hf]
  simp [skipToEnd, skipToEndAux]

/-- `Model::read_started` on the written model interior. -/
theorem readStarted_write (m : Model) (fuel : Nat) (hf : 6 ≤ fuel)
    (hlen : m.paths.length < 2 ^ 31) (rest : List Token) :
    Model.readStarted fuel (Model.writeInterior m ++ rest) = some (m, rest) := by
  obtain ⟨k, rfl⟩ : ∃ k, fuel = k + 6 := ⟨fuel - 6, by omega⟩
  simp only [Model.writeInterior, List.cons_append, List.append_assoc, List.nil_append]
  rw [Model.readStarted]
  dsimp only [expectTag]
  rw [if_pos rfl, readStartedLoop]
  dsimp only [expectStartOrEnd, expectTag]
  rw [if_pos rfl, readPaths_write m.paths (k + 5) (by omega) hlen (.End :: rest)]
  dsimp only
  rw [readStartedLoop]
  dsimp only [expectStartOrEnd]

/-- `ModelElement::update` on the written model-element interior replaces
location, scale and the embedded model. -/
theorem modelElementUpdate_write (l₀ : Vec2) (s₀ : Double) (m₀ : Model)
    (l : Vec2) (s : Double) (m : Model) (fuel : Nat) (hf : 6 ≤ fuel)
    (hlen : m.paths.length < 2 ^ 31) (rest : List Token) :
    ModelElement.update fuel l₀ s₀ m₀ (Element.writeInterior (.Model l s m) ++ rest) =
      ((l, s, m), some rest) := by
  simp only [Element.writeInterior, Model.write, List.cons_append, List.append_assoc,
    List.nil_append]
  rw [ModelElement.update]
  dsimp only [expectVec2OrEnd, expectDoubleOrEnd, expectStartOrEnd]
  rw [readStarted_write m fuel hf hlen (.End :: rest)]
  dsimp only
  rw [show skipToEnd (Token.End :: rest) = some rest from rfl]

end Scene

namespace Scene

open Reader

/-- Dispatching a serialized grid into any slot yields exactly the patched
slot. -/
theorem dispatch_grid (g : Grid) (c : Option Element) (fuel : Nat) (hf : 2 ≤ fuel)
    (rest : List Token) :
    dispatchChild fuel GRID c (Element.writeInterior (.Grid g) ++ rest) =
      (patchOne c (.Grid g), some rest) := by
  obtain ⟨f, rfl⟩ : ∃ f, fuel = f + 1 := ⟨fuel - 1, by omega⟩
  cases c with
  | none =>
    rw [dispatchChild, if_neg (by decide), if_neg (by decide), if_pos rfl]
    rw [gridUpdate_write]
    rfl
    all_goals simp
  | some c =>
    cases c with
    | Grid g₀ =>
      rw [dispatchChild, if_neg (by decide), if_neg (by decide), if_pos rfl]
      rw [gridUpdate_write]
      rfl
      all_goals simp
    | Widget a b ch =>
      rw [dispatchChild, if_neg (by decide), if_neg (by decide), if_pos rfl]
      rw [gridUpdate_write]
      rfl
      all_goals simp
    | Group l ch =>
      rw [dispatchChild, if_neg (by decide), if_neg (by decide), if_pos rfl]
      rw [gridUpdate_write]
      rfl
      all_goals simp
    | Model l s m =>
      rw [dispatchChild, if_neg (by decide), if_neg (by decide), if_pos rfl]
      rw [gridUpdate_write]
      rfl
      all_goals simp
    | Text t =>
      rw [dispatchChild, if_neg (by decide), if_neg (by decide), if_pos rfl]
      rw [gridUpdate_write]
      rfl
      all_goals simp

/-- Dispatching a serialized text node into any slot. -/
theorem dispatch_text (t : Text) (c : Option Element) (fuel : Nat) (hf : 2 ≤ fuel)
    (rest : List Token) :
    dispatchChild fuel TEXT c (Element.writeInterior (.Text t) ++ rest) =
      (patchOne c (.Text t), some rest) := by
  obtain ⟨f, rfl⟩ : ∃ f, fuel = f + 1 := ⟨fuel - 1, by omega⟩
  have key : ∀ t₀, Text.update t₀ (Element.writeInterior (.Text t) ++ rest) =
      (t, some rest) := fun t₀ => textUpdate_write t₀ t rest
  cases c with
  | none =>
    rw [dispatchChild, if_neg (by decide), if_neg (by decide), if_neg (by decide),
      if_neg (by decide), if_pos rfl]
    rw [key]
    rfl
    all_goals simp
  | some c =>
    cases c with
    | Text t₀ =>
      rw [dispatchChild, if_neg (by decide), if_neg (by decide), if_neg (by decide),
        if_neg (by decide), if_pos rfl]
      rw [key]
      rfl
      all_goals simp
    | Widget a b ch =>
      rw [dispatchChild, if_neg (by decide), if_neg (by decide), if_neg (by decide),
        if_neg (by decide), if_pos rfl]
      rw [key]
      rfl
      all_goals simp
    | Group l ch =>
      rw [dispatchChild, if_neg (by decide), if_neg (by decide), if_neg (by decide),
        if_neg (by decide), if_pos rfl]
      rw [key]
      rfl
      all_goals simp
    | Model l s m =>
      rw [dispatchChild, if_neg (by decide), if_neg (by decide), if_neg (by decide),
        if_neg (by decide), if_pos rfl]
      rw [key]
      rfl
      all_goals simp
    | Grid g₀ =>
      rw [dispatchChild, if_neg (by decide), if_neg (by decide), if_neg (by decide),
        if_neg (by decide), if_pos rfl]
      rw [key]
      rfl
      all_goals simp

/-- Dispatching a serialized model element into any slot. -/
theorem dispatch_model (l : Vec2) (s : Double) (m : Model) (c : Option Element)
    (fuel : Nat) (hf : 16 ≤ fuel) (hlen : m.paths.length < 2 ^ 31)
    (rest : List Token) :
    dispatchChild fuel MODEL c (Element.writeInterior (.Model l s m) ++ rest) =
      (patchOne c (.Model l s m), some rest) := by
  obtain ⟨f, rfl⟩ : ∃ f, fuel = f + 1 := ⟨fuel - 1, by omega⟩
  have key : ∀ l₀ s₀ m₀, ModelElement.update f l₀ s₀ m₀
      (Element.writeInterior (.Model l s m) ++ rest) = ((l, s, m), some rest) :=
    fun l₀ s₀ m₀ => modelElementUpdate_write l₀ s₀ m₀ l s m f (by omega) hlen rest
  cases c with
  | none =>
    rw [dispatchChild, if_neg (by decide), if_neg (by decide), if_neg (by decide),
      if_pos rfl]
    rw [key]
    rfl
    all_goals simp
  | some c =>
    cases c with
    | Model l₀ s₀ m₀ =>
      rw [dispatchChild, if_neg (by decide), if_neg (by decide), if_neg (by decide),
        if_pos rfl]
      rw [key]
      rfl
      all_goals simp
    | Widget a b ch =>
      rw [dispatchChild, if_neg (by decide), if_neg (by decide), if_neg (by decide),
        if_pos rfl]
      rw [key]
      rfl
      all_goals simp
    | Group l₀ ch =>
      rw [dispatchChild, if_neg (by decide), if_neg (by decide), if_neg (by decide),
        if_pos rfl]
      rw [key]
      rfl
      all_goals simp
    | Grid g₀ =>
      rw [dispatchChild, if_neg (by decide), if_neg (by decide), if_neg (by decide),
        if_pos rfl]
      rw [key]
      rfl
      all_goals simp
    | Text t₀ =>
      rw [dispatchChild, if_neg (by decide), if_neg (by decide), if_neg (by decide),
        if_pos rfl]
      rw [key]
      rfl
      all_goals simp

/-- The statement of the main induction at one node: dispatching its
serialized form into any slot produces the patched slot. -/
def PE (b : Element) : Prop :=
  b.wfE = true → ∀ (c : Option Element) (fuel : Nat) (rest : List Token),
    b.nE ≤ fuel →
    dispatchChild fuel b.tagOfE c (b.writeInterior ++ rest) = (patchOne c b, some rest)

/-- The statement of the main induction at a children list: the
`update_children` loop on its serialized form patches positionally. -/
def PEs (es : ElemList) : Prop :=
  es.wfEs = true → ∀ (done old : ElemList) (fuel : Nat) (rest : List Token),
    es.nEs ≤ fuel →
    updateChildrenLoop fuel done old (es.write ++ .End :: rest) =
      (done.append (patchEs old es), some rest)

/-- The characterization of the patch routine on serialized trees, by
strong induction on tree size. -/
theorem patch_characterization : ∀ N : Nat,
    (∀ b : Element, b.szE ≤ N → PE b) ∧ (∀ es : ElemList, es.szEs ≤ N → PEs es) := by
  intro N
  induction N with
  | zero =>
    constructor
    · intro b hb
      exact absurd hb (by have := szE_pos b; omega)
    · intro es hes
      exact absurd hes (by have := szEs_pos es; omega)
  | succ N ih =>
    obtain ⟨ihE, ihEs⟩ := ih
    constructor
    · intro b hb
      cases b with
      | Grid g =>
        intro _ c fuel rest hfuel
        exact dispatch_grid g c fuel (by simpa [Element.nE] using hfuel) rest
      | Text t =>
        intro _ c fuel rest hfuel
        exact dispatch_text t c fuel (by simpa [Element.nE] using hfuel) rest
      | Model l s m =>
        intro wf c fuel rest hfuel
        have hlen : m.paths.length < 2 ^ 31 := by
          simpa [Element.wfE] using wf
        exact dispatch_model l s m c fuel (by simpa [Element.nE] using hfuel) hlen rest
      | Widget a bs ch =>
        intro wf c fuel rest hfuel
        have hch : PEs ch := ihEs ch (by rw [Element.szE] at hb; omega)
        have hwfch : ch.wfEs = true := by simpa [Element.wfE] using wf
        have hn : 2 + ch.nEs ≤ fuel := by simpa [Element.nE] using hfuel
        -- the widget interior lemma, for an arbitrary starting state
        have HW : ∀ (a₀ : WidgetAttrs) (b₀ : List (EventType × Int)) (c₀ : ElemList)
            (f : Nat) (r : List Token), 1 + ch.nEs ≤ f →
            Widget.update f a₀ b₀ c₀ (Element.writeInterior (.Widget a bs ch) ++ r) =
              ((patchAttrs a₀ a, bs, patchEs c₀ ch), some r) := by
          intro a₀ b₀ c₀ f r hfn
          obtain ⟨f, rfl⟩ : ∃ k, f = k + 1 := ⟨f - 1, by omega⟩
          rw [Element.writeInterior]
          simp only [List.cons_append, List.append_assoc, List.nil_append]
          rw [Widget.update]
          dsimp only [expectStartOrEnd]
          rw [updateAttrs_write]
          dsimp only [expectStartOrEnd]
          rw [show writeBindings bs ++ Token.End :: Token.Start ::
            (ElemList.write ch ++ Token.End :: Token.End :: r) =
            writeBindings bs ++ Token.End :: (Token.Start ::
            (ElemList.write ch ++ Token.End :: Token.End :: r)) from rfl]
          rw [updateBindings_write]
          dsimp only [expectStartOrEnd]
          rw [hch hwfch .nil c₀ f (Token.End :: r) (by omega)]
          dsimp only
          rw [show ElemList.append .nil (patchEs c₀ ch) = patchEs c₀ ch from rfl]
          rw [show skipToEnd (Token.End :: r) = some r from rfl]
        obtain ⟨f, rfl⟩ : ∃ k, fuel = k + 1 := ⟨fuel - 1, by omega⟩
        rw [show Element.tagOfE (.Widget a bs ch) = WIDGET from rfl]
        cases c with
        | none =>
          rw [dispatchChild, if_pos rfl]
          rw [HW _ _ _ _ _ (by omega)]
          rfl
          all_goals simp
        | some c =>
          cases c with
          | Widget a₀ b₀ c₀ =>
            rw [dispatchChild, if_pos rfl]
            rw [HW _ _ _ _ _ (by omega)]
            rfl
            all_goals simp
          | Group l₀ ch₀ =>
            rw [dispatchChild, if_pos rfl]
            rw [HW _ _ _ _ _ (by omega)]
            rfl
            all_goals simp
          | Grid g₀ =>
            rw [dispatchChild, if_pos rfl]
            rw [HW _ _ _ _ _ (by omega)]
            rfl
            all_goals simp
          | Model l₀ s₀ m₀ =>
            rw [dispatchChild, if_pos rfl]
            rw [HW _ _ _ _ _ (by omega)]
            rfl
            all_goals simp
          | Text t₀ =>
            rw [dispatchChild, if_pos rfl]
            rw [HW _ _ _ _ _ (by omega)]
            rfl
            all_goals simp
      | Group l ch =>
        intro wf c fuel rest hfuel
        have hch : PEs ch := ihEs ch (by rw [Element.szE] at hb; omega)
        have hwfch : ch.wfEs = true := by simpa [Element.wfE] using wf
        have hn : 2 + ch.nEs ≤ fuel := by simpa [Element.nE] using hfuel
        have HG : ∀ (l₀ : Vec2) (c₀ : ElemList) (f : Nat) (r : List Token),
            1 + ch.nEs ≤ f →
            Group.update f l₀ c₀ (Element.writeInterior (.Group l ch) ++ r) =
              ((l, patchEs c₀ ch), some r) := by
          intro l₀ c₀ f r hfn
          obtain ⟨f, rfl⟩ : ∃ k, f = k + 1 := ⟨f - 1, by omega⟩
          rw [Element.writeInterior]
          simp only [List.cons_append, List.append_assoc, List.nil_append]
          rw [Group.update]
          dsimp only [expectVec2OrEnd, expectStartOrEnd]
          rw [hch hwfch .nil c₀ f (Token.End :: r) (by omega)]
          dsimp only
          rw [show ElemList.append .nil (patchEs c₀ ch) = patchEs c₀ ch from rfl]
          rw [show skipToEnd (Token.End :: r) = some r from rfl]
        obtain ⟨f, rfl⟩ : ∃ k, fuel = k + 1 := ⟨fuel - 1, by omega⟩
        rw [show Element.tagOfE (.Group l ch) = GROUP from rfl]
        cases c with
        | none =>
          rw [dispatchChild, if_neg (by decide), if_pos rfl]
          rw [HG _ _ _ _ (by omega)]
          rfl
          all_goals simp
        | some c =>
          cases c with
          | Group l₀ ch₀ =>
            rw [dispatchChild, if_neg (by decide), if_pos rfl]
            rw [HG _ _ _ _ (by omega)]
            rfl
            all_goals simp
          | Widget a₀ b₀ c₀ =>
            rw [dispatchChild, if_neg (by decide), if_pos rfl]
            rw [HG _ _ _ _ (by omega)]
            rfl
            all_goals simp
          | Grid g₀ =>
            rw [dispatchChild, if_neg (by decide), if_pos rfl]
            rw [HG _ _ _ _ (by omega)]
            rfl
            all_goals simp
          | Model l₀ s₀ m₀ =>
            rw [dispatchChild, if_neg (by decide), if_pos rfl]
            rw [HG _ _ _ _ (by omega)]
            rfl
            all_goals simp
          | Text t₀ =>
            rw [dispatchChild, if_neg (by decide), if_pos rfl]
            rw [HG _ _ _ _ (by omega)]
            rfl
            all_goals simp
    · intro es hes
      cases es with
      | nil =>
        intro _ done old fuel rest hfuel
        rw [ElemList.nEs] at hfuel
        obtain ⟨f, rfl⟩ : ∃ k, fuel = k + 1 := ⟨fuel - 1, by omega⟩
        rw [show ElemList.write .nil = ([] : List Token) from rfl, List.nil_append]
        rw [updateChildrenLoop]
        dsimp only [expectStartOrEnd]
        rw [show patchEs old .nil = .nil from rfl, ElemList.append_nil]
      | cons e es =>
        intro wf done old fuel rest hfuel
        have hPE : PE e := ihE e
          (by have := szEs_pos es; rw [ElemList.szEs] at hes; omega)
        have hPEs : PEs es := ihEs es
          (by have := szE_pos e; rw [ElemList.szEs] at hes; omega)
        have hwfe : e.wfE = true := by
          simp [ElemList.wfEs] at wf
          exact wf.1
        have hwfes : es.wfEs = true := by
          simp [ElemList.wfEs] at wf
          exact wf.2
        simp only [ElemList.nEs] at hfuel
        obtain ⟨f, rfl⟩ : ∃ k, fuel = k + 1 := ⟨fuel - 1, by omega⟩
        rw [show ElemList.write (.cons e es) =
          (Token.Start :: Token.Value (.tag e.tagOfE) :: e.writeInterior) ++
            es.write from rfl]
        simp only [List.cons_append, List.append_assoc]
        rw [updateChildrenLoop]
        dsimp only [expectStartOrEnd, expectTag]
        cases old with
        | nil =>
          dsimp only
          rw [hPE hwfe none f (es.write ++ Token.End :: rest) (by omega)]
          dsimp only
          rw [hPEs hwfes (ElemList.append done (.cons (patchOne none e) .nil)) .nil f
            rest (by omega)]
          rw [patchEs_cons, ElemList.append_assoc]
          rfl
        | cons c cs =>
          dsimp only
          rw [hPE hwfe (some c) f (es.write ++ Token.End :: rest) (by omega)]
          dsimp only
          rw [hPEs hwfes (ElemList.append done (.cons (patchOne (some c) e) .nil)) cs f
            rest (by omega)]
          rw [patchEs_cons, ElemList.append_assoc]
          rfl

end Scene

namespace Scene

/-- Patching an attrs slot and re-serializing gives back the incoming
group: the border colour retained from the old state is exactly the part
the writer omits (width not positive). -/
theorem patchAttrs_writeEq (a₀ a : WidgetAttrs) :
    writeAttrsInterior (patchAttrs a₀ a) = writeAttrsInterior a := by
  by_cases h : a.borderWidth > 0 <;> simp [patchAttrs, writeAttrsInterior, h]

/-- Patching attrs twice with the same incoming group changes nothing. -/
theorem patchAttrs_idem (a₀ a : WidgetAttrs) :
    patchAttrs (patchAttrs a₀ a) a = patchAttrs a₀ a := by
  by_cases h : a.borderWidth > 0 <;> simp [patchAttrs, h]

/-- `patchSame` keeps the incoming node's variant. -/
theorem patchSame_tagOf (x e : Element) :
    Element.tagOfE (patchSame x e) = Element.tagOfE e := by
  cases x <;> cases e <;> rfl

/-- The result of `patchSame` is of the incoming node's kind. -/
theorem sameKind_patchSame (x e : Element) :
    sameKind (patchSame x e) e = true := by
  cases x <;> cases e <;> rfl

/-- The default node of a kind is of that kind. -/
theorem sameKind_default (e : Element) :
    sameKind (defaultOfKind e) e = true := by
  cases e <;> rfl

/-- A patched subtree serializes exactly as the incoming subtree: the only
retained old data (a border colour under non-positive width) is never
written.  Proved for nodes and children lists together, by strong
induction on size. -/
theorem patch_writeEq : ∀ N : Nat,
    (∀ e : Element, e.szE ≤ N → ∀ x : Element,
      Element.writeInterior (patchSame x e) = Element.writeInterior e) ∧
    (∀ es : ElemList, es.szEs ≤ N → ∀ old : ElemList,
      ElemList.write (patchEs old es) = ElemList.write es) := by
  intro N
  induction N with
  | zero =>
    constructor
    · intro e he
      exact absurd he (by have := szE_pos e; omega)
    · intro es hes
      exact absurd hes (by have := szEs_pos es; omega)
  | succ N ih =>
    obtain ⟨ihE, ihEs⟩ := ih
    constructor
    · intro e he x
      cases e with
      | Widget a b c =>
        have hc : c.szEs ≤ N := by rw [Element.szE] at he; omega
        cases x <;>
          simp [patchSame, Element.writeInterior, patchAttrs_writeEq, ihEs c hc]
      | Group l c =>
        have hc : c.szEs ≤ N := by rw [Element.szE] at he; omega
        cases x <;> simp [patchSame, Element.writeInterior, ihEs c hc]
      | Grid g => cases x <;> rfl
      | Model l s m => cases x <;> rfl
      | Text t => cases x <;> rfl
    · intro es hes old
      cases es with
      | nil => rfl
      | cons e es =>
        have he : e.szE ≤ N := by
          have := szEs_pos es; rw [ElemList.szEs] at hes; omega
        have hes2 : es.szEs ≤ N := by
          have := szE_pos e; rw [ElemList.szEs] at hes; omega
        rw [patchEs]
        rw [show ElemList.write (.cons e es) =
          (Token.Start :: Token.Value (.tag e.tagOfE) :: e.writeInterior) ++
            es.write from rfl]
        rw [show ∀ h t, ElemList.write (.cons h t) =
          (Token.Start :: Token.Value (.tag h.tagOfE) :: h.writeInterior) ++
            t.write from fun _ _ => rfl]
        rw [patchSame_tagOf, ihE e he, ihEs es hes2]

/-- Re-patching with the same stream is a no-op, for nodes (the base being
of the incoming kind, as the patch always arranges) and children lists. -/
theorem patch_idem : ∀ N : Nat,
    (∀ e : Element, e.szE ≤ N → ∀ x : Element, sameKind x e = true →
      patchSame (patchSame x e) e = patchSame x e) ∧
    (∀ es : ElemList, es.szEs ≤ N → ∀ old : ElemList,
      patchEs (patchEs old es) es = patchEs old es) := by
  intro N
  induction N with
  | zero =>
    constructor
    · intro e he
      exact absurd he (by have := szE_pos e; omega)
    · intro es hes
      exact absurd hes (by have := szEs_pos es; omega)
  | succ N ih =>
    obtain ⟨ihE, ihEs⟩ := ih
    constructor
    · intro e he x hx
      cases e with
      | Widget a b c =>
        have hc : c.szEs ≤ N := by rw [Element.szE] at he; omega
        cases x <;> simp [sameKind] at hx <;>
          simp [patchSame, patchAttrs_idem, ihEs c hc]
      | Group l c =>
        have hc : c.szEs ≤ N := by rw [Element.szE] at he; omega
        cases x <;> simp [sameKind] at hx <;> simp [patchSame, ihEs c hc]
      | Grid g => cases x <;> simp [sameKind] at hx <;> rfl
      | Model l s m => cases x <;> simp [sameKind] at hx <;> rfl
      | Text t => cases x <;> simp [sameKind] at hx <;> rfl
    · intro es hes old
      cases es with
      | nil => rfl
      | cons e es =>
        have he : e.szE ≤ N := by
          have := szEs_pos es; rw [ElemList.szEs] at hes; omega
        have hes2 : es.szEs ≤ N := by
          have := szE_pos e; rw [ElemList.szEs] at hes; omega
        have hbase : ∀ base : Element, sameKind base e = true →
            patchSame (patchSame base e) e = patchSame base e :=
          fun base hb => ihE e he base hb
        cases old with
        | nil =>
          rw [patchEs, patchEs]
          simp only [ElemList.headE, ElemList.tailE]
          rw [sameKind_patchSame, if_pos rfl, ihEs es hes2,
            hbase _ (sameKind_default e)]
        | cons c cs =>
          rw [patchEs, patchEs]
          simp only [ElemList.headE, ElemList.tailE]
          rw [sameKind_patchSame, if_pos rfl, ihEs es hes2]
          by_cases hk : sameKind c e = true
          · rw [if_pos hk, hbase _ hk]
          · rw [if_neg hk, hbase _ (sameKind_default e)]

/-- The base node `patchOne` patches is always of the incoming kind. -/
theorem sameKind_base (c : Option Element) (B : Element) :
    sameKind
      (match c with
       | some c => if sameKind c B then c else defaultOfKind B
       | none => defaultOfKind B) B = true := by
  cases c with
  | none => exact sameKind_default B
  | some c =>
    by_cases hk : sameKind c B = true
    · simp [hk]
    · simp [hk, sameKind_default]

/-- A patched node serializes exactly as the incoming node. -/
theorem patchOne_writeEq (c : Option Element) (B : Element) :
    Element.write (patchOne c B) = Element.write B := by
  unfold patchOne
  rw [Element.write, Element.write, patchSame_tagOf,
    (patch_writeEq B.szE).1 B le_rfl]

/-- Patching the already-patched node with the same stream is a no-op. -/
theorem patchOne_idem (c : Option Element) (B : Element) :
    patchOne (some (patchOne c B)) B = patchOne c B := by
  unfold patchOne
  rw [show (match some (patchSame
      (match c with
       | some c => if sameKind c B then c else defaultOfKind B
       | none => defaultOfKind B) B) with
     | some c => if sameKind c B then c else defaultOfKind B
     | none => defaultOfKind B) =
      (if sameKind (patchSame
        (match c with
         | some c => if sameKind c B then c else defaultOfKind B
         | none => defaultOfKind B) B) B then (patchSame
        (match c with
         | some c => if sameKind c B then c else defaultOfKind B
         | none => defaultOfKind B) B) else defaultOfKind B) from rfl]
  rw [sameKind_patchSame, if_pos rfl]
  exact (patch_idem B.szE).1 B le_rfl _ (sameKind_base c B)

/-- Patching an already-patched children list with the same stream is a
no-op. -/
theorem patchEs_idem (old es : ElemList) :
    patchEs (patchEs old es) es = patchEs old es :=
  (patch_idem es.szEs).2 es le_rfl old

end Scene

/- ## The text codec (`text_writer.rs`, `text_reader.rs`)

Byte-level model of the text format, for the double-free fragment of
`Value`.  `f64` values travel through Rust's float `Display`/`parse`
pair, which is outside this development; every reader path that would
parse a floating-point literal is modelled as a decode failure and the
round-trip theorems stay inside the fragment. -/

namespace TextCodec

/-- `from_hex`. -/
def from_hex (b : Nat) : Nat :=
  if 48 ≤ b ∧ b ≤ 57 then b - 48
  else if 97 ≤ b ∧ b ≤ 102 then b - 97 + 10
  else b

/-- The whitespace bytes the tokenizer skips. -/
def isWS (b : Nat) : Bool := b = 32 || b = 9 || b = 10 || b = 13

/-- The bytes that terminate a scalar token without being consumed:
whitespace and the three closers. -/
def isTerm (b : Nat) : Bool := isWS b || b = 41 || b = 93 || b = 125

/-- `SubToken` (`text_reader.rs`).  A floating-point literal is kept as
its raw byte buffer. -/
inductive SubToken where
  | Start | End | VecStart | VecEnd | ArrayStart | ArrayEnd
  | tag (t : Nat)
  | bool (b : Bool)
  | int (v : Int)
  | doubleRaw (buf : List Nat)
  | str (s : List Nat)
  | blob (bs : List Nat)
  | EndOfFile
deriving DecidableEq

/-- All bytes are decimal digits. -/
def allDigits (ds : List Nat) : Bool := ds.all fun d => 48 ≤ d && d ≤ 57

/-- The value of a decimal digit string. -/
def decNat (ds : List Nat) : Nat := ds.foldl (fun acc d => acc * 10 + (d - 48)) 0

/-- `String::parse::<i32>().unwrap()` on the buffer `read_number`
collected (an optional sign and digits); an out-of-range or malformed
buffer panics the unwrap, modelled as a decode failure. -/
def parseI32 (buf : List Nat) : Option Int :=
  if buf.head? = some 45 then
    if allDigits buf.tail ∧ buf.tail ≠ [] ∧ decNat buf.tail ≤ 2 ^ 31 then
      some (-(decNat buf.tail : Int))
    else none
  else
    if allDigits buf ∧ buf ≠ [] ∧ decNat buf < 2 ^ 31 then
      some ((decNat buf : Int))
    else none

/-- `SubReader::read_tag`: up to four tag characters folded into a `u32`,
then a terminator (EOF before the terminator is an error). -/
def read_tag : Nat → Nat → Nat → List Nat → Option (SubToken × List Nat)
  | 0, _, _, _ => none
  | _ + 1, _, _, [] =>
    -- while-let exits at EOF and falls through to `invalid_token`
    none
  | fuel + 1, count, tag, b :: bs =>
    if isTerm b ∧ count = 4 then some (.tag tag, b :: bs)
    else if ((65 ≤ b ∧ b ≤ 90) ∨ (48 ≤ b ∧ b ≤ 57) ∨ b = 95) ∧ count < 4 then
      read_tag fuel (count + 1) ((tag <<< 8 ||| b) % 2 ^ 32) bs
    else none

/-- `SubReader::read_bool`: the spelled-out keyword, then a terminator. -/
def read_bool : List Nat → Bool → List Nat → Option (SubToken × List Nat)
  | [], result, input =>
    match input with
    | [] => none
    | b :: bs => if isTerm b then some (.bool result, b :: bs) else none
  | w :: ws, result, input =>
    match input with
    | [] => none
    | b :: bs => if b = w then read_bool ws result bs else none

/-- `SubReader::read_double`: after the decimal point, digits with an
optional exponent part, up to a terminator.  The buffer is kept raw. -/
def read_double : Nat → Bool → List Nat → List Nat → Option (SubToken × List Nat)
  | 0, _, _, _ => none
  | _ + 1, _, _, [] => none
  | fuel + 1, hasExp, buf, b :: bs =>
    if isTerm b then some (.doubleRaw buf, b :: bs)
    else if 48 ≤ b ∧ b ≤ 57 then read_double fuel hasExp (buf ++ [b]) bs
    else if b = 101 ∧ ¬hasExp then read_double fuel true (buf ++ [b]) bs
    else if b = 45 ∧ buf.getLast? = some 101 then read_double fuel hasExp (buf ++ [b]) bs
    else none

/-- `SubReader::read_blob`: lowercase hex pairs after `0x`, up to a
terminator, which is only legal between pairs. -/
def read_blob : Nat → List Nat → Option Nat → List Nat → Option (SubToken × List Nat)
  | 0, _, _, _ => none
  | _ + 1, _, _, [] => none
  | fuel + 1, buf, topHalf, b :: bs =>
    if isTerm b ∧ topHalf = none then some (.blob buf, b :: bs)
    else if (48 ≤ b ∧ b ≤ 57) ∨ (97 ≤ b ∧ b ≤ 102) then
      match topHalf with
      | some top => read_blob fuel (buf ++ [top ||| from_hex b]) none bs
      | none => read_blob fuel buf (some (from_hex b <<< 4)) bs
    else none

/-- `SubReader::read_number`: digits (after an optional leading minus) up
to a terminator give an `Int`; a decimal point hands over to
`read_double`, a leading `0x` to `read_blob`. -/
def read_number : Nat → List Nat → List Nat → Option (SubToken × List Nat)
  | 0, _, _ => none
  | _ + 1, _, [] => none
  | fuel + 1, buf, b :: bs =>
    if isTerm b then
      match parseI32 buf with
      | some v => some (.int v, b :: bs)
      | none => none
    else if b = 45 ∧ buf = [] then read_number fuel (buf ++ [b]) bs
    else if 48 ≤ b ∧ b ≤ 57 then read_number fuel (buf ++ [b]) bs
    else if b = 46 ∧ buf ≠ [] ∧ buf.getLast? ≠ some 45 then
      read_double fuel false (buf ++ [b]) bs
    else if b = 120 ∧ buf = [48] then read_blob fuel [] none bs
    else none

/-- `SubReader::read_string`: bytes up to an unescaped `"`, with `""`
standing for a literal quote; the closing quote must be followed by a
terminator.  The `String::from_utf8(..).unwrap()` panics on invalid
UTF-8, modelled as a decode failure. -/
def read_string : Nat → List Nat → Bool → List Nat → Option (SubToken × List Nat)
  | 0, _, _, _ => none
  | _ + 1, _, _, [] => none
  | fuel + 1, buf, escaped, b :: bs =>
    if escaped then
      if isTerm b then
        if isValidUtf8 buf then some (.str buf, b :: bs) else none
      else if b = 34 then read_string fuel (buf ++ [34]) false bs
      else none
    else
      if b = 34 then read_string fuel buf true bs
      else read_string fuel (buf ++ [b]) false bs

/-- `SubReader::read_next`: skip whitespace, then dispatch on the first
byte.  The scalar readers see that byte unconsumed. -/
def subReadNext : Nat → List Nat → Option (SubToken × List Nat)
  | 0, _ => none
  | _ + 1, [] => some (.EndOfFile, [])
  | fuel + 1, b :: bs =>
    if isWS b then subReadNext fuel bs
    else if b = 40 then some (.Start, bs)
    else if b = 41 then some (.End, bs)
    else if b = 91 then some (.VecStart, bs)
    else if b = 93 then some (.VecEnd, bs)
    else if b = 123 then some (.ArrayStart, bs)
    else if b = 125 then some (.ArrayEnd, bs)
    else if b = 34 then read_string fuel [] false bs
    else if 65 ≤ b ∧ b ≤ 90 then read_tag fuel 0 0 (b :: bs)
    else if (48 ≤ b ∧ b ≤ 57) ∨ b = 45 then read_number fuel [] (b :: bs)
    else if b = 116 then read_bool [116, 114, 117, 101] true (b :: bs)
    else if b = 102 then read_bool [102, 97, 108, 115, 101] false (b :: bs)
    else none

/-- `TextReader::read_bool_array`: `Bool` items up to the closing `}`. -/
def read_bool_array : Nat → List Bool → List Nat → Option (Token × List Nat)
  | 0, _, _ => none
  | fuel + 1, acc, input =>
    match subReadNext fuel input with
    | some (.bool v, rest) => read_bool_array fuel (acc ++ [v]) rest
    | some (.ArrayEnd, rest) => some (.Value (.boolArray acc), rest)
    | _ => none

/-- `TextReader::read_int_array`: `Int` items up to the closing `}`. -/
def read_int_array : Nat → List Int → List Nat → Option (Token × List Nat)
  | 0, _, _ => none
  | fuel + 1, acc, input =>
    match subReadNext fuel input with
    | some (.int v, rest) => read_int_array fuel (acc ++ [v]) rest
    | some (.ArrayEnd, rest) => some (.Value (.intArray acc), rest)
    | _ => none

/-- `TextReader::read_array`: the first item selects the element type; an
immediate `}` is `invalid_token`.  Arrays of floating-point-bearing items
(doubles, vectors, boxes) leave the modelled fragment. -/
def read_array (fuel : Nat) (input : List Nat) : Option (Token × List Nat) :=
  match subReadNext fuel input with
  | some (.bool v, rest) => read_bool_array fuel [v] rest
  | some (.int v, rest) => read_int_array fuel [v] rest
  | _ => none

/-- `TextReader::read_next` on the modelled fragment: scalar sub-tokens
map to `Token`s; `[` and floating-point literals leave the fragment. -/
def textReadNext (fuel : Nat) (input : List Nat) : Option (Token × List Nat) :=
  match subReadNext fuel input with
  | some (.Start, rest) => some (.Start, rest)
  | some (.End, rest) => some (.End, rest)
  | some (.EndOfFile, rest) => some (.EndOfFile, rest)
  | some (.tag t, rest) => some (.Value (.tag t), rest)
  | some (.bool v, rest) => some (.Value (.bool v), rest)
  | some (.int v, rest) => some (.Value (.int v), rest)
  | some (.str s, rest) => some (.Value (.string s), rest)
  | some (.blob bs, rest) => some (.Value (.blob bs), rest)
  | some (.ArrayStart, rest) => read_array fuel rest
  | _ => none

/-- Decimal digits of `n`, most significant first (`{}` on an integer). -/
def natDec : Nat → Nat → List Nat
  | 0, _ => []
  | fuel + 1, n =>
    if n < 10 then [48 + n] else natDec fuel (n / 10) ++ [48 + n % 10]

/-- `TextWriter::write_int`: `{}` on an `i32`. -/
def write_int (v : Int) : List Nat :=
  if v < 0 then 45 :: natDec 15 (-v).toNat else natDec 15 v.toNat

/-- `TextWriter::write_bool`. -/
def write_bool (b : Bool) : List Nat :=
  if b then [116, 114, 117, 101] else [102, 97, 108, 115, 101]

/-- `TextWriter::write_tag`: the four bytes of the `u32`, high first. -/
def write_tag (t : Nat) : List Nat :=
  [t >>> 24 % 256, t >>> 16 % 256, t >>> 8 % 256, t % 256]

/-- `str::replace("\x22", "\x22\x22")` in `write_string`. -/
def escapeQuotes (s : List Nat) : List Nat :=
  (s.map fun b => if b = 34 then [34, 34] else [b]).flatten

/-- `TextWriter::write_string`. -/
def write_string (s : List Nat) : List Nat :=
  34 :: escapeQuotes s ++ [34]

/-- One lowercase hex digit. -/
def hexDigit (n : Nat) : Nat := if n < 10 then 48 + n else 97 + (n - 10)

/-- `TextWriter::write_blob`: `0x` then `{:02x}` per byte. -/
def write_blob (bs : List Nat) : List Nat :=
  48 :: 120 :: (bs.map fun b => [hexDigit (b / 16), hexDigit (b % 16)]).flatten

/-- `TextWriter::write_array` at top-level indent: `\x7b`, each item on
its own line indented one level, then `\x7d`. -/
def write_array (items : List (List Nat)) : List Nat :=
  [123, 10] ++ (items.map fun i => [32, 32] ++ i ++ [10]).flatten ++ [125]

/-- `TextWriter::write_single_value` on the double-free fragment (a fresh
writer, so no leading separator); values whose text form goes through the
float `Display` are outside the model. -/
def writeValueText : Value → Option (List Nat)
  | .bool b => some (write_bool b)
  | .int v => some (write_int v)
  | .string s => some (write_string s)
  | .blob bs => some (write_blob bs)
  | .tag t => some (write_tag t)
  | .boolArray vs => some (write_array (vs.map write_bool))
  | .intArray vs => some (write_array (vs.map write_int))
  | _ => none

/-- A tag character as `read_tag` accepts it: `A`-`Z`, `0`-`9` or `_`. -/
def isTagChar (b : Nat) : Bool :=
  (65 ≤ b && b ≤ 90) || (48 ≤ b && b ≤ 57) || b = 95

/-- The double-free values whose text form reads back: booleans, i32-range
ints, valid-UTF-8 strings, byte blobs, tags whose first character is a
letter (the tokenizer only enters `read_tag` on `A`-`Z`) and whose others
are tag characters, and non-empty bool/int arrays (`read_array` rejects an
immediate `\x7d`). -/
def TextOK : Value → Prop
  | .bool _ => True
  | .int v => -(2 ^ 31) ≤ v ∧ v < 2 ^ 31
  | .string s => isValidUtf8 s = true
  | .blob bs => ∀ b ∈ bs, b < 256
  | .tag t => t < 2 ^ 32 ∧ 65 ≤ t >>> 24 ∧ t >>> 24 ≤ 90 ∧
      isTagChar (t >>> 16 % 256) = true ∧ isTagChar (t >>> 8 % 256) = true ∧
      isTagChar (t % 256) = true
  | .boolArray vs => vs ≠ []
  | .intArray vs => vs ≠ [] ∧ ∀ v ∈ vs, -(2 ^ 31) ≤ v ∧ v < 2 ^ 31
  | _ => False

end TextCodec

namespace TextCodec

/-- Decimal digits are not token terminators. -/
theorem isTerm_digit {d : Nat} (h1 : 48 ≤ d) (h2 : d ≤ 57) : isTerm d = false := by
  simp [isTerm, isWS]
  omega

/-- Folding one more digit. -/
theorem decNat_append (xs : List Nat) (d : Nat) :
    decNat (xs ++ [d]) = decNat xs * 10 + (d - 48) := by
  simp [decNat, List.foldl_append]

/-- `natDec` produces the decimal digit string of `n`: all digits,
non-empty, of bounded length, evaluating back to `n`. -/
theorem natDec_spec : ∀ fuel n, 1 ≤ fuel → n < 10 ^ fuel →
    (∀ d ∈ natDec fuel n, 48 ≤ d ∧ d ≤ 57) ∧ natDec fuel n ≠ [] ∧
    decNat (natDec fuel n) = n ∧ (natDec fuel n).length ≤ fuel := by
  intro fuel
  induction fuel with
  | zero => intro n h0; omega
  | succ fuel ih =>
    intro n _ hn
    by_cases h : n < 10
    · refine ⟨?_, by simp [natDec, h], ?_, by simp [natDec, h]⟩
      · intro d hd
        simp [natDec, h] at hd
        omega
      · simp [natDec, h, decNat]
    · have hdiv : n / 10 < 10 ^ fuel := by
        rw [Nat.div_lt_iff_lt_mul (by omega)]
        calc n < 10 ^ (fuel + 1) := hn
        _ = 10 ^ fuel * 10 := by ring
      have hf1 : 1 ≤ fuel := by
        rcases Nat.eq_zero_or_pos fuel with h0 | h0
        · subst h0; simp at hn; omega
        · exact h0
      obtain ⟨ihd, ihne, ihval, ihlen⟩ := ih (n / 10) hf1 hdiv
      rw [natDec, if_neg h]
      refine ⟨?_, by simp, ?_, ?_⟩
      · intro d hd
        rcases List.mem_append.mp hd with h1 | h1
        · exact ihd d h1
        · simp at h1; omega
      · rw [decNat_append, ihval]; omega
      · rw [List.length_append]; simp; omega

/-- A digit-membership list is `allDigits`. -/
theorem allDigits_of (ds : List Nat) (h : ∀ d ∈ ds, 48 ≤ d ∧ d ≤ 57) :
    allDigits ds = true := by
  simp [allDigits, List.all_eq_true]
  intro d hd
  exact ⟨by exact_mod_cast (h d hd).1, by exact_mod_cast (h d hd).2⟩

/-- `read_number` consuming a digit string up to a terminator parses the
accumulated buffer. -/
theorem read_number_digits : ∀ (ds : List Nat) (fuel : Nat) (buf : List Nat)
    (b : Nat) (rest : List Nat), (∀ d ∈ ds, 48 ≤ d ∧ d ≤ 57) →
    ds.length < fuel → isTerm b = true →
    read_number fuel buf (ds ++ b :: rest) =
      (match parseI32 (buf ++ ds) with
       | some v => some (SubToken.int v, b :: rest)
       | none => none) := by
  intro ds
  induction ds with
  | nil =>
    intro fuel buf b rest _ hf hb
    obtain ⟨f, rfl⟩ : ∃ f, fuel = f + 1 := ⟨fuel - 1, by omega⟩
    simp only [List.nil_append, List.append_nil]
    rw [read_number, if_pos hb]
  | cons d ds ih =>
    intro fuel buf b rest hd hf hb
    obtain ⟨f, rfl⟩ : ∃ f, fuel = f + 1 := ⟨fuel - 1, by omega⟩
    have hd0 := hd d (by simp)
    rw [List.cons_append, read_number,
      if_neg (by rw [isTerm_digit hd0.1 hd0.2]; simp),
      if_neg (by omega), if_pos (by omega),
      ih f (buf ++ [d]) b rest (fun x hx => hd x (by simp [hx]))
        (by simp at hf ⊢; omega) hb]
    rw [List.append_assoc]
    rfl

/-- `parseI32` inverts `write_int` on the `i32` range. -/
theorem parseI32_write_int (v : Int) (h1 : -(2 ^ 31) ≤ v) (h2 : v < 2 ^ 31) :
    parseI32 (write_int v) = some v := by
  by_cases hv : v < 0
  · have hlt : (-v).toNat < 10 ^ 15 := by omega
    obtain ⟨hdig, hne, hval, _⟩ := natDec_spec 15 (-v).toNat (by omega) hlt
    rw [write_int, if_pos hv, parseI32, if_pos (by simp)]
    rw [if_pos ⟨allDigits_of _ hdig, by simpa using hne, by rw [List.tail_cons, hval]; omega⟩]
    rw [List.tail_cons, hval]
    congr 1
    omega
  · have hlt : v.toNat < 10 ^ 15 := by omega
    obtain ⟨hdig, hne, hval, _⟩ := natDec_spec 15 v.toNat (by omega) hlt
    rw [write_int, if_neg hv, parseI32, if_neg ?hhead]
    case hhead =>
      intro hhead
      cases hds : natDec 15 v.toNat with
      | nil => exact hne hds
      | cons x xs =>
        rw [hds] at hhead
        simp at hhead
        have := hdig x (by rw [hds]; simp)
        omega
    rw [if_pos ⟨allDigits_of _ hdig, hne, by rw [hval]; omega⟩, hval]
    congr 1
    omega

/-- `read_number` on a written `i32` followed by a terminator. -/
theorem read_number_write_int (v : Int) (h1 : -(2 ^ 31) ≤ v) (h2 : v < 2 ^ 31)
    (fuel : Nat) (hf : 17 ≤ fuel) (b : Nat) (hb : isTerm b = true)
    (rest : List Nat) :
    read_number fuel [] (write_int v ++ b :: rest) = some (.int v, b :: rest) := by
  by_cases hv : v < 0
  · have hlt : (-v).toNat < 10 ^ 15 := by omega
    obtain ⟨hdig, hne, hval, hlen⟩ := natDec_spec 15 (-v).toNat (by omega) hlt
    obtain ⟨f, rfl⟩ : ∃ f, fuel = f + 1 := ⟨fuel - 1, by omega⟩
    rw [write_int, if_pos hv, List.cons_append, read_number,
      if_neg (by simp [isTerm, isWS]), if_pos (by simp), List.nil_append,
      read_number_digits _ f [45] b rest hdig (by omega) hb]
    rw [show [45] ++ natDec 15 (-v).toNat = write_int v from by
      rw [write_int, if_pos hv]; rfl]
    rw [parseI32_write_int v h1 h2]
  · have hlt : v.toNat < 10 ^ 15 := by omega
    obtain ⟨hdig, hne, hval, hlen⟩ := natDec_spec 15 v.toNat (by omega) hlt
    rw [write_int, if_neg hv,
      read_number_digits _ fuel [] b rest hdig (by omega) hb]
    rw [List.nil_append,
      show natDec 15 v.toNat = write_int v from by rw [write_int, if_neg hv]]
    rw [parseI32_write_int v h1 h2]

/-- `SubReader::read_next` on a written `i32`. -/
theorem subRead_write_int (v : Int) (h1 : -(2 ^ 31) ≤ v) (h2 : v < 2 ^ 31)
    (fuel : Nat) (hf : 18 ≤ fuel) (b : Nat) (hb : isTerm b = true)
    (rest : List Nat) :
    subReadNext fuel (write_int v ++ b :: rest) = some (.int v, b :: rest) := by
  obtain ⟨f, rfl⟩ : ∃ f, fuel = f + 1 := ⟨fuel - 1, by omega⟩
  have key : ∀ b₀ bs, b₀ = 45 ∨ (48 ≤ b₀ ∧ b₀ ≤ 57) →
      subReadNext (f + 1) (b₀ :: bs) = read_number f [] (b₀ :: bs) := by
    intro b₀ bs h₀
    rw [subReadNext, if_neg (by simp [isWS]; omega), if_neg (fun hE => by omega),
      if_neg (by omega), if_neg (fun hE => by omega), if_neg (by omega),
      if_neg (fun hE => by omega), if_neg (by omega), if_neg (fun hE => by omega),
      if_neg (by omega), if_pos (by omega)]
  by_cases hv : v < 0
  · rw [show write_int v ++ b :: rest = 45 :: (natDec 15 (-v).toNat ++ b :: rest)
      from by rw [write_int, if_pos hv]; rfl]
    rw [key 45 _ (Or.inl rfl)]
    rw [show (45 : Nat) :: (natDec 15 (-v).toNat ++ b :: rest) =
      write_int v ++ b :: rest from by rw [write_int, if_pos hv]; rfl]
    exact read_number_write_int v h1 h2 f (by omega) b hb rest
  · have hlt : v.toNat < 10 ^ 15 := by omega
    obtain ⟨hdig, hne, hval, hlen⟩ := natDec_spec 15 v.toNat (by omega) hlt
    cases hds : natDec 15 v.toNat with
    | nil => exact absurd hds hne
    | cons x xs =>
      have hx := hdig x (by rw [hds]; simp)
      rw [show write_int v ++ b :: rest = x :: (xs ++ b :: rest) from by
        rw [write_int, if_neg hv, hds]; rfl]
      rw [key x _ (Or.inr hx)]
      rw [show x :: (xs ++ b :: rest) = write_int v ++ b :: rest from by
        rw [write_int, if_neg hv, hds]; rfl]
      exact read_number_write_int v h1 h2 f (by omega) b hb rest

end TextCodec

namespace TextCodec

/-- `SubReader::read_next` on a written bool. -/
theorem subRead_write_bool (v : Bool) (fuel : Nat) (hf : 1 ≤ fuel) (b : Nat)
    (hb : isTerm b = true) (rest : List Nat) :
    subReadNext fuel (write_bool v ++ b :: rest) = some (.bool v, b :: rest) := by
  obtain ⟨f, rfl⟩ : ∃ f, fuel = f + 1 := ⟨fuel - 1, by omega⟩
  cases v <;>
    simp [write_bool, subReadNext, isWS, read_bool, hb]

/-- Tag characters are not token terminators. -/
theorem isTerm_tagChar {d : Nat} (h : isTagChar d = true) : isTerm d = false := by
  simp [isTagChar] at h
  simp [isTerm, isWS]
  omega

/-- One accumulation step of `read_tag` is plain arithmetic. -/
theorem tagStep (x y : Nat) (hy : y < 256) (hx : x < 2 ^ 24) :
    (x <<< 8 ||| y) % 2 ^ 32 = x * 256 + y := by
  rw [Nat.lor_comm, BinaryRT.lor_shiftLeft_eq_add 8 x hy]
  have : y + x * 2 ^ 8 < 2 ^ 32 := by omega
  rw [Nat.mod_eq_of_lt this]
  ring

/-- `SubReader::read_next` on a written tag whose first character is a
letter and whose others are tag characters. -/
theorem subRead_write_tag (t : Nat) (ht : t < 2 ^ 32)
    (hA : 65 ≤ t >>> 24) (hZ : t >>> 24 ≤ 90)
    (hc1 : isTagChar (t >>> 16 % 256) = true)
    (hc2 : isTagChar (t >>> 8 % 256) = true)
    (hc3 : isTagChar (t % 256) = true)
    (fuel : Nat) (hf : 6 ≤ fuel) (b : Nat) (hb : isTerm b = true)
    (rest : List Nat) :
    subReadNext fuel (write_tag t ++ b :: rest) = some (.tag t, b :: rest) := by
  obtain ⟨f, rfl⟩ : ∃ f, fuel = f + 6 := ⟨fuel - 6, by omega⟩
  have e24 : t >>> 24 = t / 2 ^ 24 := Nat.shiftRight_eq_div_pow t 24
  have e16 : t >>> 16 = t / 2 ^ 16 := Nat.shiftRight_eq_div_pow t 16
  have e8 : t >>> 8 = t / 2 ^ 8 := Nat.shiftRight_eq_div_pow t 8
  have h24 : t >>> 24 % 256 = t >>> 24 := by rw [e24]; omega
  simp only [write_tag, List.cons_append, List.nil_append]
  rw [h24]
  have hCa : isTagChar (t >>> 24) = true := by simp [isTagChar]; omega
  simp [isTagChar] at hc1 hc2 hc3
  rw [subReadNext, if_neg (by simp [isWS]; omega), if_neg (fun hE => by omega),
    if_neg (by omega), if_neg (fun hE => by omega), if_neg (by omega),
    if_neg (fun hE => by omega), if_neg (by omega), if_neg (fun hE => by omega),
    if_pos (by omega)]
  rw [read_tag, if_neg (by simp), if_pos ⟨by omega, by omega⟩]
  rw [read_tag, if_neg (by rw [isTerm_tagChar (by simp [isTagChar]; omega)]; simp),
    if_pos ⟨by omega, by omega⟩]
  rw [read_tag, if_neg (by rw [isTerm_tagChar (by simp [isTagChar]; omega)]; simp),
    if_pos ⟨by omega, by omega⟩]
  rw [read_tag, if_neg (by rw [isTerm_tagChar (by simp [isTagChar]; omega)]; simp),
    if_pos ⟨by omega, by omega⟩]
  rw [read_tag, if_pos ⟨hb, rfl⟩]
  have s1 : (0 <<< 8 ||| t >>> 24) % 2 ^ 32 = t >>> 24 :=
    by rw [tagStep 0 (t >>> 24) (by omega) (by omega)]; omega
  rw [s1,
    tagStep (t >>> 24) (t >>> 16 % 256) (by omega) (by omega),
    tagStep (t >>> 24 * 256 + t >>> 16 % 256) (t >>> 8 % 256) (by omega) (by omega),
    tagStep ((t >>> 24 * 256 + t >>> 16 % 256) * 256 + t >>> 8 % 256) (t % 256)
      (by omega) (by omega)]
  simp only [Option.some.injEq, Prod.mk.injEq, SubToken.tag.injEq]
  refine ⟨?_, trivial⟩
  rw [e24, e16, e8]
  omega

end TextCodec

namespace TextCodec

/-- `read_string` inverts the quote-doubling writer, keeping any bytes the
accumulator already holds. -/
theorem read_string_write : ∀ (s acc : List Nat) (fuel : Nat),
    (escapeQuotes s).length + 2 ≤ fuel → ∀ (b : Nat), isTerm b = true →
    isValidUtf8 (acc ++ s) = true → ∀ rest : List Nat,
    read_string fuel acc false (escapeQuotes s ++ 34 :: b :: rest) =
      some (.str (acc ++ s), b :: rest) := by
  intro s
  induction s with
  | nil =>
    intro acc fuel hf b hb hu rest
    obtain ⟨f, rfl⟩ : ∃ f, fuel = f + 2 := ⟨fuel - 2, by
      simp [escapeQuotes] at hf; omega⟩
    simp only [escapeQuotes, List.map_nil, List.flatten_nil, List.nil_append]
    rw [read_string, if_neg (by simp), if_pos rfl]
    rw [read_string, if_pos rfl, if_pos hb,
      if_pos (by simpa using hu)]
    simp
  | cons x s ih =>
    intro acc fuel hf b hb hu rest
    by_cases hx : x = 34
    · subst hx
      have hesc : escapeQuotes (34 :: s) = 34 :: 34 :: escapeQuotes s := by
        simp [escapeQuotes]
      rw [hesc] at hf ⊢
      obtain ⟨f, rfl⟩ : ∃ f, fuel = f + 2 := ⟨fuel - 2, by simp at hf; omega⟩
      simp only [List.cons_append]
      rw [read_string, if_neg (by simp), if_pos rfl]
      rw [read_string, if_pos rfl, if_neg (by simp [isTerm, isWS]),
        if_pos rfl]
      rw [ih (acc ++ [34]) f (by simp at hf ⊢; omega) b hb
        (by simpa using hu) rest]
      simp
    · have hesc : escapeQuotes (x :: s) = x :: escapeQuotes s := by
        simp [escapeQuotes, hx]
      rw [hesc] at hf ⊢
      obtain ⟨f, rfl⟩ : ∃ f, fuel = f + 1 := ⟨fuel - 1, by simp at hf; omega⟩
      simp only [List.cons_append]
      rw [read_string, if_neg (by simp), if_neg hx]
      rw [ih (acc ++ [x]) f (by simp at hf ⊢; omega) b hb
        (by simpa using hu) rest]
      simp

/-- `SubReader::read_next` on a written string. -/
theorem subRead_write_string (s : List Nat) (hu : isValidUtf8 s = true)
    (fuel : Nat) (hf : (escapeQuotes s).length + 3 ≤ fuel) (b : Nat)
    (hb : isTerm b = true) (rest : List Nat) :
    subReadNext fuel (write_string s ++ b :: rest) = some (.str s, b :: rest) := by
  obtain ⟨f, rfl⟩ : ∃ f, fuel = f + 1 := ⟨fuel - 1, by omega⟩
  rw [show write_string s ++ b :: rest =
    34 :: (escapeQuotes s ++ 34 :: b :: rest) from by simp [write_string]]
  rw [subReadNext, if_neg (by simp [isWS]), if_neg (by omega),
    if_neg (fun hE => by omega), if_neg (by omega), if_neg (fun hE => by omega),
    if_neg (by omega), if_neg (fun hE => by omega), if_pos rfl]
  simpa using read_string_write s [] f (by omega) b hb (by simpa using hu) rest

/-- A hex digit is not a terminator and passes the hex test. -/
theorem hexDigit_range (n : Nat) (h : n < 16) :
    (48 ≤ hexDigit n ∧ hexDigit n ≤ 57) ∨ (97 ≤ hexDigit n ∧ hexDigit n ≤ 102) := by
  by_cases h10 : n < 10 <;> simp [hexDigit, h10] <;> omega

/-- `from_hex` inverts `hexDigit`. -/
theorem from_hex_hexDigit (n : Nat) (h : n < 16) : from_hex (hexDigit n) = n := by
  by_cases h10 : n < 10
  · rw [hexDigit, if_pos h10, from_hex, if_pos (by omega)]
    omega
  · rw [hexDigit, if_neg h10, from_hex, if_neg (by omega), if_pos (by omega)]
    omega

/-- Reassembling the two nibbles. -/
theorem nibbles (x : Nat) (h : x < 256) : (x / 16) <<< 4 ||| x % 16 = x := by
  rw [Nat.lor_comm, BinaryRT.lor_shiftLeft_eq_add 4 (x / 16) (by omega)]
  omega

/-- The written hex pairs of a byte string. -/
def hexPairs (bs : List Nat) : List Nat :=
  (bs.map fun x => [hexDigit (x / 16), hexDigit (x % 16)]).flatten

/-- `read_blob` inverts the hex writer. -/
theorem read_blob_write : ∀ (bs acc : List Nat) (fuel : Nat),
    (∀ x ∈ bs, x < 256) → 2 * bs.length + 1 ≤ fuel → ∀ (b : Nat),
    isTerm b = true → ∀ rest : List Nat,
    read_blob fuel acc none (hexPairs bs ++ b :: rest) =
      some (.blob (acc ++ bs), b :: rest) := by
  intro bs
  induction bs with
  | nil =>
    intro acc fuel _ hf b hb rest
    obtain ⟨f, rfl⟩ : ∃ f, fuel = f + 1 := ⟨fuel - 1, by omega⟩
    simp only [hexPairs, List.map_nil, List.flatten_nil, List.nil_append]
    rw [read_blob, if_pos ⟨hb, rfl⟩]
    simp
  | cons x bs ih =>
    intro acc fuel hx hf b hb rest
    have hx0 := hx x (by simp)
    have hp : hexPairs (x :: bs) =
        hexDigit (x / 16) :: hexDigit (x % 16) :: hexPairs bs := by
      simp [hexPairs]
    have hxtail : ∀ y ∈ bs, y < 256 := fun y hy => hx y (by simp [hy])
    rw [hp]
    obtain ⟨f, rfl⟩ : ∃ f, fuel = f + 2 := ⟨fuel - 2, by simp at hf; omega⟩
    have r1 := hexDigit_range (x / 16) (by omega)
    have r2 := hexDigit_range (x % 16) (by omega)
    simp only [List.cons_append]
    rw [read_blob, if_neg (by
        intro hc
        have := hc.1
        simp [isTerm, isWS] at this
        omega),
      if_pos (by omega)]
    rw [read_blob, if_neg (by simp), if_pos (by omega)]
    rw [from_hex_hexDigit (x / 16) (by omega), from_hex_hexDigit (x % 16) (by omega),
      nibbles x hx0]
    rw [ih (acc ++ [x]) f hxtail (by simp at hf ⊢; omega) b hb rest]
    simp

/-- `SubReader::read_next` on a written blob (dispatches through the `0x`
prefix of `read_number`). -/
theorem subRead_write_blob (bs : List Nat) (h : ∀ x ∈ bs, x < 256)
    (fuel : Nat) (hf : 2 * bs.length + 4 ≤ fuel) (b : Nat)
    (hb : isTerm b = true) (rest : List Nat) :
    subReadNext fuel (write_blob bs ++ b :: rest) = some (.blob bs, b :: rest) := by
  obtain ⟨f, rfl⟩ : ∃ f, fuel = f + 3 := ⟨fuel - 3, by omega⟩
  rw [show write_blob bs ++ b :: rest =
    48 :: 120 :: (hexPairs bs ++ b :: rest) from by simp [write_blob, hexPairs]]
  rw [subReadNext, if_neg (by simp [isWS]), if_neg (fun hE => by omega),
    if_neg (by omega), if_neg (fun hE => by omega), if_neg (by omega),
    if_neg (fun hE => by omega), if_neg (by omega), if_neg (fun hE => by omega),
    if_neg (by omega), if_pos (by omega)]
  rw [read_number, if_neg (by simp [isTerm, isWS]), if_neg (fun hE => by omega),
    if_pos (by omega)]
  rw [read_number, if_neg (by simp [isTerm, isWS]), if_neg (by simp),
    if_neg (by omega), if_neg (by simp), if_pos ⟨rfl, rfl⟩]
  simpa using read_blob_write bs [] f h (by omega) b hb rest

end TextCodec

namespace TextCodec

/-- Skipping one whitespace byte costs one unit of budget. -/
theorem subRead_ws1 (k : Nat) (c : Nat) (hc : isWS c = true) (X : List Nat) :
    subReadNext (k + 1) (c :: X) = subReadNext k X := by
  rw [subReadNext, if_pos hc]

/-- Skipping a whitespace prefix. -/
theorem subRead_skipWS : ∀ (pre : List Nat), (∀ c ∈ pre, isWS c = true) →
    ∀ (fuel : Nat) (X : List Nat),
    subReadNext (pre.length + fuel) (pre ++ X) = subReadNext fuel X := by
  intro pre
  induction pre with
  | nil => intro _ fuel X; simp
  | cons c pre ih =>
    intro hws fuel X
    rw [show (c :: pre).length + fuel = (pre.length + fuel) + 1 from by simp; omega,
      List.cons_append,
      subRead_ws1 _ c (hws c (by simp)) _,
      ih (fun x hx => hws x (by simp [hx])) fuel X]

/-- A whitespace prefix extended by an item indent. -/
theorem wsPre (pre : List Nat) (hws : ∀ c ∈ pre, isWS c = true) :
    ∀ c ∈ pre ++ [32, 32], isWS c = true := by
  intro c hc
  rcases List.mem_append.mp hc with h | h
  · exact hws c h
  · simp at h
    simp [h, isWS]

/-- The item lines of `write_array`. -/
def itemsOf (items : List (List Nat)) : List Nat :=
  (items.map fun i => [32, 32] ++ i ++ [10]).flatten

/-- `write_array` in terms of its item lines. -/
theorem write_array_eq (items : List (List Nat)) :
    write_array items = 123 :: 10 :: itemsOf items ++ [125] := by
  simp [write_array, itemsOf]

/-- A closing brace after whitespace reads as `ArrayEnd`. -/
theorem subRead_arrayEnd (pre : List Nat) (hws : ∀ c ∈ pre, isWS c = true)
    (F : Nat) (hF : pre.length + 1 ≤ F) (rest : List Nat) :
    subReadNext F (pre ++ 125 :: rest) = some (.ArrayEnd, rest) := by
  obtain ⟨m, rfl⟩ : ∃ m, F = pre.length + (m + 1) := ⟨F - pre.length - 1, by omega⟩
  rw [subRead_skipWS pre hws _ _]
  rw [subReadNext, if_neg (by simp [isWS]), if_neg (fun hE => by omega),
    if_neg (by omega), if_neg (fun hE => by omega), if_neg (by omega),
    if_neg (fun hE => by omega), if_pos rfl]

/-- The bool-array loop consumes the written item lines up to the
closing brace. -/
theorem read_bool_array_write : ∀ (vs : List Bool) (acc : List Bool)
    (pre : List Nat), (∀ c ∈ pre, isWS c = true) → ∀ (fuel : Nat),
    pre.length + 9 * vs.length + 2 ≤ fuel → ∀ (rest : List Nat),
    read_bool_array fuel acc (pre ++ itemsOf (vs.map write_bool) ++ 125 :: rest) =
      some (.Value (.boolArray (acc ++ vs)), rest) := by
  intro vs
  induction vs with
  | nil =>
    intro acc pre hws fuel hf rest
    obtain ⟨F, rfl⟩ : ∃ F, fuel = F + 1 := ⟨fuel - 1, by omega⟩
    rw [read_bool_array]
    simp only [itemsOf, List.map_nil, List.flatten_nil, List.append_nil]
    rw [subRead_arrayEnd pre hws F (by omega) rest]
  | cons v vs ih =>
    intro acc pre hws fuel hf rest
    simp only [List.length_cons] at hf
    obtain ⟨F, rfl⟩ : ∃ F, fuel = F + 1 := ⟨fuel - 1, by omega⟩
    rw [read_bool_array]
    rw [show pre ++ itemsOf ((v :: vs).map write_bool) ++ 125 :: rest =
      (pre ++ [32, 32]) ++ (write_bool v ++
        10 :: (itemsOf (vs.map write_bool) ++ 125 :: rest)) from by
      simp [itemsOf]]
    have hsub : subReadNext F ((pre ++ [32, 32]) ++ (write_bool v ++
        10 :: (itemsOf (vs.map write_bool) ++ 125 :: rest))) =
        some (.bool v, 10 :: (itemsOf (vs.map write_bool) ++ 125 :: rest)) := by
      obtain ⟨m, rfl⟩ : ∃ m, F = (pre ++ [32, 32]).length + (m + 1) :=
        ⟨F - pre.length - 3, by simp; omega⟩
      rw [subRead_skipWS _ (wsPre pre hws) _ _]
      exact subRead_write_bool v (m + 1) (by omega) 10 (by simp [isTerm, isWS]) _
    rw [hsub]
    dsimp only
    rw [show (10 : Nat) :: (itemsOf (vs.map write_bool) ++ 125 :: rest) =
      [10] ++ itemsOf (vs.map write_bool) ++ 125 :: rest from by simp]
    rw [show acc ++ v :: vs = (acc ++ [v]) ++ vs from by simp]
    rw [ih (acc ++ [v]) [10] (by simp [isWS]) F (by simp; omega) rest]

/-- The int-array loop consumes the written item lines up to the closing
brace. -/
theorem read_int_array_write : ∀ (vs : List Int) (acc : List Int),
    (∀ v ∈ vs, -(2 ^ 31) ≤ v ∧ v < 2 ^ 31) → ∀ (pre : List Nat),
    (∀ c ∈ pre, isWS c = true) → ∀ (fuel : Nat),
    pre.length + 22 * vs.length + 2 ≤ fuel → ∀ (rest : List Nat),
    read_int_array fuel acc (pre ++ itemsOf (vs.map write_int) ++ 125 :: rest) =
      some (.Value (.intArray (acc ++ vs)), rest) := by
  intro vs
  induction vs with
  | nil =>
    intro acc _ pre hws fuel hf rest
    obtain ⟨F, rfl⟩ : ∃ F, fuel = F + 1 := ⟨fuel - 1, by omega⟩
    rw [read_int_array]
    simp only [itemsOf, List.map_nil, List.flatten_nil, List.append_nil]
    rw [subRead_arrayEnd pre hws F (by omega) rest]
  | cons v vs ih =>
    intro acc hvs pre hws fuel hf rest
    have hv := hvs v (by simp)
    simp only [List.length_cons] at hf
    obtain ⟨F, rfl⟩ : ∃ F, fuel = F + 1 := ⟨fuel - 1, by omega⟩
    rw [read_int_array]
    rw [show pre ++ itemsOf ((v :: vs).map write_int) ++ 125 :: rest =
      (pre ++ [32, 32]) ++ (write_int v ++
        10 :: (itemsOf (vs.map write_int) ++ 125 :: rest)) from by
      simp [itemsOf]]
    have hsub : subReadNext F ((pre ++ [32, 32]) ++ (write_int v ++
        10 :: (itemsOf (vs.map write_int) ++ 125 :: rest))) =
        some (.int v, 10 :: (itemsOf (vs.map write_int) ++ 125 :: rest)) := by
      obtain ⟨m, rfl⟩ : ∃ m, F = (pre ++ [32, 32]).length + (m + 18) :=
        ⟨F - pre.length - 20, by simp; omega⟩
      rw [subRead_skipWS _ (wsPre pre hws) _ _]
      exact subRead_write_int v hv.1 hv.2 (m + 18) (by omega) 10
        (by simp [isTerm, isWS]) _
    rw [hsub]
    dsimp only
    rw [show (10 : Nat) :: (itemsOf (vs.map write_int) ++ 125 :: rest) =
      [10] ++ itemsOf (vs.map write_int) ++ 125 :: rest from by simp]
    rw [show acc ++ v :: vs = (acc ++ [v]) ++ vs from by simp]
    rw [ih (acc ++ [v]) (fun x hx => hvs x (by simp [hx])) [10] (by simp [isWS]) F
      (by simp; omega) rest]

end TextCodec

namespace TextCodec

/-- The indent-and-newline bytes around array items are whitespace. -/
theorem wsItem : ∀ c ∈ ([10] ++ [32, 32] : List Nat), isWS c = true := by
  intro c hc
  simp at hc
  rcases hc with h | h <;> simp [h, isWS]

/-- Two hex characters per byte, plus the `0x` prefix. -/
theorem write_blob_length : ∀ bs : List Nat,
    (write_blob bs).length = 2 * bs.length + 2
  | [] => rfl
  | x :: bs => by
    have ih := write_blob_length bs
    simp [write_blob] at ih ⊢
    omega

/-- Each item line adds at least one byte. -/
theorem itemsOf_length : ∀ items : List (List Nat),
    items.length ≤ (itemsOf items).length
  | [] => le_refl _
  | i :: is => by
    have ih := itemsOf_length is
    simp [itemsOf] at ih ⊢
    omega

/-- The array form is longer than its item count. -/
theorem write_array_length (items : List (List Nat)) :
    items.length + 3 ≤ (write_array items).length := by
  have := itemsOf_length items
  rw [write_array_eq]
  simp
  omega

end TextCodec

namespace TextCodec

/-- A successful `SubReader` step determines `TextReader::read_next` for
scalar tokens. -/
theorem textRead_of_sub (fuel : Nat) (input rest : List Nat) :
    (∀ v, subReadNext fuel input = some (.bool v, rest) →
      textReadNext fuel input = some (.Value (.bool v), rest)) ∧
    (∀ v, subReadNext fuel input = some (.int v, rest) →
      textReadNext fuel input = some (.Value (.int v), rest)) ∧
    (∀ t, subReadNext fuel input = some (.tag t, rest) →
      textReadNext fuel input = some (.Value (.tag t), rest)) ∧
    (∀ s, subReadNext fuel input = some (.str s, rest) →
      textReadNext fuel input = some (.Value (.string s), rest)) ∧
    (∀ bs, subReadNext fuel input = some (.blob bs, rest) →
      textReadNext fuel input = some (.Value (.blob bs), rest)) := by
  refine ⟨?_, ?_, ?_, ?_, ?_⟩ <;>
    (intro x hx; unfold textReadNext; rw [hx])

/-- The writer's output read back with a following space: every scalar of
the fragment and both modelled array forms.  The space (or any other
terminator) is required — the scalar readers demand a byte after the
token, so a value flush with the end of input does not read back. -/
theorem textReadNext_writeValue (v : Value) (h : TextOK v) (out : List Nat)
    (hw : writeValueText v = some out) (fuel : Nat)
    (hf : 30 * out.length + 40 ≤ fuel) (rest : List Nat) :
    textReadNext fuel (out ++ 32 :: rest) = some (.Value v, 32 :: rest) := by
  have hterm : isTerm 32 = true := by simp [isTerm, isWS]
  cases v with
  | bool b =>
    obtain rfl : write_bool b = out := by
      simpa [writeValueText] using hw
    exact (textRead_of_sub fuel _ _).1 b
      (subRead_write_bool b fuel (by omega) 32 hterm rest)
  | int n =>
    obtain rfl : write_int n = out := by simpa [writeValueText] using hw
    exact (textRead_of_sub fuel _ _).2.1 n
      (subRead_write_int n h.1 h.2 fuel (by omega) 32 hterm rest)
  | tag t =>
    obtain rfl : write_tag t = out := by simpa [writeValueText] using hw
    obtain ⟨ht, hA, hZ, hc1, hc2, hc3⟩ := h
    exact (textRead_of_sub fuel _ _).2.2.1 t
      (subRead_write_tag t ht hA hZ hc1 hc2 hc3 fuel (by omega) 32 hterm rest)
  | string s =>
    obtain rfl : write_string s = out := by simpa [writeValueText] using hw
    have hlen : (escapeQuotes s).length + 3 ≤ fuel := by
      have : (write_string s).length = (escapeQuotes s).length + 2 := by
        simp [write_string]
      omega
    exact (textRead_of_sub fuel _ _).2.2.2.1 s
      (subRead_write_string s h fuel hlen 32 hterm rest)
  | blob bs =>
    obtain rfl : write_blob bs = out := by simpa [writeValueText] using hw
    have hlen : 2 * bs.length + 4 ≤ fuel := by
      have := write_blob_length bs
      omega
    exact (textRead_of_sub fuel _ _).2.2.2.2 bs
      (subRead_write_blob bs h fuel hlen 32 hterm rest)
  | boolArray vs =>
    obtain rfl : write_array (vs.map write_bool) = out := by
      simpa [writeValueText] using hw
    cases vs with
    | nil => exact absurd rfl h
    | cons b bs =>
      have hwlen : 9 * (b :: bs).length + 10 ≤ fuel := by
        have h1 := write_array_length ((b :: bs).map write_bool)
        simp only [List.length_map] at h1
        simp only [List.length_cons] at h1 ⊢
        omega
      obtain ⟨F, rfl⟩ : ∃ F, fuel = F + 1 := ⟨fuel - 1, by omega⟩
      rw [write_array_eq]
      unfold textReadNext
      rw [show (123 :: 10 :: itemsOf ((b :: bs).map write_bool) ++ [125]) ++
        32 :: rest = 123 :: (10 :: itemsOf ((b :: bs).map write_bool) ++
          125 :: 32 :: rest) from by simp]
      rw [subReadNext, if_neg (by simp [isWS]), if_neg (by omega),
        if_neg (fun hE => by omega), if_neg (by omega), if_neg (fun hE => by omega),
        if_pos rfl]
      dsimp only
      rw [read_array]
      rw [show (10 : Nat) :: itemsOf ((b :: bs).map write_bool) ++
        125 :: 32 :: rest = ([10] ++ [32, 32]) ++ (write_bool b ++
          10 :: (itemsOf (bs.map write_bool) ++ 125 :: 32 :: rest)) from by
        simp [itemsOf]]
      have hsub : subReadNext (F + 1) (([10] ++ [32, 32]) ++ (write_bool b ++
          10 :: (itemsOf (bs.map write_bool) ++ 125 :: 32 :: rest))) =
          some (.bool b, 10 :: (itemsOf (bs.map write_bool) ++
            125 :: 32 :: rest)) := by
        obtain ⟨m, hm⟩ : ∃ m, F + 1 = ([10] ++ [32, 32]).length + (m + 1) :=
          ⟨F - 3, by simp at hwlen ⊢; omega⟩
        rw [hm, subRead_skipWS ([10] ++ [32, 32]) wsItem _ _]
        exact subRead_write_bool b (m + 1) (by omega) 10 (by simp [isTerm, isWS]) _
      rw [hsub]
      dsimp only
      rw [show (10 : Nat) :: (itemsOf (bs.map write_bool) ++ 125 :: 32 :: rest) =
        [10] ++ itemsOf (bs.map write_bool) ++ 125 :: 32 :: rest from by simp]
      have hfin := read_bool_array_write bs ([] ++ [b]) [10] (by simp [isWS])
        (F + 1) (by simp at hwlen ⊢; omega) (32 :: rest)
      simpa using hfin
  | intArray vs =>
    obtain rfl : write_array (vs.map write_int) = out := by
      simpa [writeValueText] using hw
    obtain ⟨hne, hvs⟩ := h
    cases vs with
    | nil => exact absurd rfl hne
    | cons b bs =>
      have hv := hvs b (by simp)
      have hwlen : 22 * (b :: bs).length + 26 ≤ fuel := by
        have h1 := write_array_length ((b :: bs).map write_int)
        simp only [List.length_map] at h1
        simp only [List.length_cons] at h1 ⊢
        omega
      obtain ⟨F, rfl⟩ : ∃ F, fuel = F + 1 := ⟨fuel - 1, by omega⟩
      rw [write_array_eq]
      unfold textReadNext
      rw [show (123 :: 10 :: itemsOf ((b :: bs).map write_int) ++ [125]) ++
        32 :: rest = 123 :: (10 :: itemsOf ((b :: bs).map write_int) ++
          125 :: 32 :: rest) from by simp]
      rw [subReadNext, if_neg (by simp [isWS]), if_neg (by omega),
        if_neg (fun hE => by omega), if_neg (by omega), if_neg (fun hE => by omega),
        if_pos rfl]
      dsimp only
      rw [read_array]
      rw [show (10 : Nat) :: itemsOf ((b :: bs).map write_int) ++
        125 :: 32 :: rest = ([10] ++ [32, 32]) ++ (write_int b ++
          10 :: (itemsOf (bs.map write_int) ++ 125 :: 32 :: rest)) from by
        simp [itemsOf]]
      have hsub : subReadNext (F + 1) (([10] ++ [32, 32]) ++ (write_int b ++
          10 :: (itemsOf (bs.map write_int) ++ 125 :: 32 :: rest))) =
          some (.int b, 10 :: (itemsOf (bs.map write_int) ++
            125 :: 32 :: rest)) := by
        obtain ⟨m, hm⟩ : ∃ m, F + 1 = ([10] ++ [32, 32]).length + (m + 18) :=
          ⟨F - 20, by simp at hwlen ⊢; omega⟩
        rw [hm, subRead_skipWS ([10] ++ [32, 32]) wsItem _ _]
        exact subRead_write_int b hv.1 hv.2 (m + 18) (by omega) 10
          (by simp [isTerm, isWS]) _
      rw [hsub]
      dsimp only
      rw [show (10 : Nat) :: (itemsOf (bs.map write_int) ++ 125 :: 32 :: rest) =
        [10] ++ itemsOf (bs.map write_int) ++ 125 :: 32 :: rest from by simp]
      have hfin := read_int_array_write bs ([] ++ [b])
        (fun x hx => hvs x (by simp [hx])) [10] (by simp [isWS])
        (F + 1) (by simp at hwlen ⊢; omega) (32 :: rest)
      simpa using hfin
  | double d => exact absurd h (by simp [TextOK])
  | vec2 x => exact absurd h (by simp [TextOK])
  | vec3 x => exact absurd h (by simp [TextOK])
  | vec4 x => exact absurd h (by simp [TextOK])
  | box2 x => exact absurd h (by simp [TextOK])
  | doubleArray x => exact absurd h (by simp [TextOK])
  | vec2Array x => exact absurd h (by simp [TextOK])
  | vec3Array x => exact absurd h (by simp [TextOK])
  | vec4Array x => exact absurd h (by simp [TextOK])
  | box2Array x => exact absurd h (by simp [TextOK])

/-- A lone `0` flush against the end of input never reads back, whatever
the budget: `read_number` hits EOF before any terminator. -/
theorem textReadNext_zero_eof : ∀ fuel, textReadNext fuel [48] = none := by
  intro fuel
  match fuel with
  | 0 => rfl
  | 1 => rfl
  | 2 => rfl
  | (f + 3) => rfl

end TextCodec

/-! ## The renderer's grid uniform (`widget/rendering.rs`) -/

namespace Scene

/-- The `grid_offset` uniform assembled by `draw_grid`
(`widget/rendering.rs`): its X component is `grid.offset.0` but its Y
component is `grid.size.1`, not `grid.offset.1` (the `as f32` narrowing
is irrelevant to which field is read and is not modelled). -/
def gridOffsetUniform (g : Grid) : Double × Double :=
  (g.offset.1, g.size.2)

end Scene

/-! ## The claims -/

open BinaryWriter BinaryReader Reader Scene TextCodec

/-- C1: Binary round-trip — for every well-formed `Value v`, writing `v`
with `BinaryWriter::write_value` and reading the produced bytes back with
`BinaryReader::read_next` yields `Token::Value(v)` with the remaining
input untouched. -/
theorem claim_C1_binary_roundtrip {v : Value} (h : WFValue v) (rest : List Nat) :
    readNext (writeValue v ++ rest) = some (.Value v, rest) :=
  BinaryRT.readNext_writeValue h rest

theorem claim_C1_binary_roundtrip_witness :
    WFValue (.int 1000) ∧
    readNext (writeValue (.int 1000) ++ [0xfe]) = some (.Value (.int 1000), [0xfe]) :=
  ⟨show WFInt 1000 from ⟨by decide, by decide⟩,
    @claim_C1_binary_roundtrip (.int 1000)
      (show WFInt 1000 from ⟨by decide, by decide⟩) [0xfe]⟩

/-- C2 (counterexample): patching tree `A` with the serialized stream of
tree `B` does not always yield a tree structurally equal to `B`.  When
`B`'s border width is not positive its border colour is never serialized
(`Widget::write` skips the border pair), so `update_attrs` keeps `A`'s
border colour: here the patched node keeps colour `(1, 2, 3)` where `B`
holds `(5, 6, 7)`. -/
theorem claim_C2_counterexample :
    updateChildren 5
        (.cons (.Widget ⟨(0, 0), (0, 0), (0, 0, 0, 0), (1, 2, 3), 0⟩ [] .nil) .nil)
        (ElemList.write (.cons
          (.Widget ⟨(0, 0), (0, 0), (0, 0, 0, 0), (5, 6, 7), 0⟩ [] .nil) .nil) ++
          [.End]) =
      (.cons (.Widget ⟨(0, 0), (0, 0), (0, 0, 0, 0), (1, 2, 3), 0⟩ [] .nil) .nil,
        some []) ∧
    (Element.Widget ⟨(0, 0), (0, 0), (0, 0, 0, 0), (1, 2, 3), 0⟩ [] .nil) ≠
      (Element.Widget ⟨(0, 0), (0, 0), (0, 0, 0, 0), (5, 6, 7), 0⟩ [] .nil) := by
  refine ⟨rfl, fun heq => ?_⟩
  have := congrArg (fun e => match e with
    | Element.Widget a _ _ => a.borderColour
    | _ => (0, 0, 0)) heq
  simp at this

/-- C2 (amended): patching `A` with `B`'s stream yields the tree
`patchOne (some A) B`, which serializes byte-for-byte as `B` does (the
retained border colour is exactly the data `B` never writes), and
patching it again with the same stream is a no-op. -/
theorem claim_C2_patch_idempotent (A B : Element) (hwf : B.wfE = true)
    (fuel : Nat) (hfuel : ElemList.nEs (.cons B .nil) ≤ fuel)
    (rest : List Token) :
    ∃ P, updateChildren fuel (.cons A .nil)
          (ElemList.write (.cons B .nil) ++ .End :: rest) =
        (.cons P .nil, some rest) ∧
      Element.write P = Element.write B ∧
      updateChildren fuel (.cons P .nil)
          (ElemList.write (.cons B .nil) ++ .End :: rest) =
        (.cons P .nil, some rest) := by
  have hPEs := (patch_characterization (ElemList.szEs (.cons B .nil))).2
    (.cons B .nil) le_rfl
  have hwfs : ElemList.wfEs (.cons B .nil) = true := by
    simp [ElemList.wfEs, hwf]
  refine ⟨patchOne (some A) B, ?_, patchOne_writeEq (some A) B, ?_⟩
  · have h1 := hPEs hwfs .nil (.cons A .nil) fuel rest hfuel
    rw [updateChildren, h1]
    rfl
  · have h2 := hPEs hwfs .nil (.cons (patchOne (some A) B) .nil) fuel rest hfuel
    rw [updateChildren, h2]
    rw [show ElemList.append .nil
      (patchEs (.cons (patchOne (some A) B) .nil) (.cons B .nil)) =
      patchEs (.cons (patchOne (some A) B) .nil) (.cons B .nil) from rfl]
    rw [show patchEs (.cons (patchOne (some A) B) .nil) (.cons B .nil) =
      .cons (patchOne (some (patchOne (some A) B)) B) .nil from rfl]
    rw [patchOne_idem (some A) B]

theorem claim_C2_patch_idempotent_witness :
    Element.wfE (.Grid defaultGrid) = true ∧
    ElemList.nEs (.cons (.Grid defaultGrid) .nil) ≤ 4 ∧
    ∃ P, updateChildren 4 (.cons (.Text defaultText) .nil)
          (ElemList.write (.cons (.Grid defaultGrid) .nil) ++ .End :: []) =
        (.cons P .nil, some []) ∧
      Element.write P = Element.write (.Grid defaultGrid) ∧
      updateChildren 4 (.cons P .nil)
          (ElemList.write (.cons (.Grid defaultGrid) .nil) ++ .End :: []) =
        (.cons P .nil, some []) :=
  ⟨rfl, by decide,
    claim_C2_patch_idempotent (.Text defaultText) (.Grid defaultGrid) rfl 4
      (by decide) []⟩

/-- C3: after a successful `update_children` run over a serialized
children group of `n` children, the receiver's list has length exactly
`n`, whatever its previous length. -/
theorem claim_C3_children_length (es : ElemList) (hwf : es.wfEs = true)
    (old : ElemList) (fuel : Nat) (hfuel : es.nEs ≤ fuel) (rest : List Token) :
    ∃ res, updateChildren fuel old (es.write ++ .End :: rest) =
        (res, some rest) ∧ res.length = es.length := by
  have h := (patch_characterization es.szEs).2 es le_rfl hwf .nil old fuel rest hfuel
  exact ⟨patchEs old es, by rw [updateChildren, h]; rfl, patchEs_length es old⟩

theorem claim_C3_children_length_witness :
    ElemList.wfEs (.cons (.Grid defaultGrid) .nil) = true ∧
    ElemList.nEs (.cons (.Grid defaultGrid) .nil) ≤ 4 ∧
    ∃ res, updateChildren 4
        (.cons (.Text defaultText) (.cons (.Grid defaultGrid) .nil))
        (ElemList.write (.cons (.Grid defaultGrid) .nil) ++ .End :: []) =
        (res, some []) ∧ res.length = ElemList.length (.cons (.Grid defaultGrid) .nil) :=
  ⟨rfl, by decide,
    claim_C3_children_length (.cons (.Grid defaultGrid) .nil) rfl
      (.cons (.Text defaultText) (.cons (.Grid defaultGrid) .nil)) 4 (by decide) []⟩

/-- C4 (counterexample): the bindings slot is not atomic on error.
`update_bindings` first clears the list and refills it pair by pair; on
an unknown event tag it stops with an error, leaving the widget holding
the partial refill `[(Down, 5)]` — neither its previous value (here
`[(Up, 1)]`) nor any fully decoded incoming list. -/
theorem claim_C4_counterexample :
    updateBindings [.Value (.tag DOWN), .Value (.int 5), .Value (.tag 0)] =
      ([(.Down, 5)], none) ∧
    ([(.Down, 5)] : List (EventType × Int)) ≠ [(.Up, 1)] := by
  exact ⟨rfl, by decide⟩

/-- C4 (amended): on the error-free path the bindings slot is fully
replaced — reading back a written bindings list installs exactly that
list and consumes through the closing `End`. -/
theorem claim_C4_bindings_replaced (bs : List (EventType × Int))
    (rest : List Token) :
    updateBindings (writeBindings bs ++ .End :: rest) = (bs, some rest) :=
  updateBindings_write bs rest

/-- C5 (code bug): the varint decoder's guard `length > 10` is checked
before each byte, so an encoding whose first ten bytes all carry the
continuation bit is still accepted when an eleventh byte terminates it —
the spec says any such input must be rejected.  Only from the twelfth
byte on does the guard fire. -/
theorem claim_C5_varint_limit :
    readUint (List.replicate 10 0x80 ++ [0x00]) = some (0, []) ∧
    readUint (List.replicate 11 0x80 ++ [0x00]) = none := by
  constructor
  · rfl
  · rfl

/-- C6 (counterexample): a value flush against the end of input does not
read back: the text scalar readers insist on a terminator byte after the
token, so `read_next` hits EOF inside `read_number` and fails whatever
the budget.  `0` is `write_value`'s output for `Int 0`. -/
theorem claim_C6_counterexample :
    writeValueText (.int 0) = some [48] ∧
    ∀ fuel, textReadNext fuel [48] = none :=
  ⟨rfl, textReadNext_zero_eof⟩

/-- C6 (amended): for the double-free fragment — bools, i32-range ints,
valid-UTF-8 strings, byte blobs, letter-led tags and non-empty bool/int
arrays — writing with `TextWriter::write_value` and reading back with
`TextReader::read_next` recovers the value exactly, provided a terminator
byte (here a space) follows the written text. -/
theorem claim_C6_text_roundtrip (v : Value) (h : TextOK v) (out : List Nat)
    (hw : writeValueText v = some out) (rest : List Nat) :
    textReadNext (30 * out.length + 40) (out ++ 32 :: rest) =
      some (.Value v, 32 :: rest) :=
  textReadNext_writeValue v h out hw _ le_rfl rest

theorem claim_C6_text_roundtrip_witness :
    TextOK (.int 1000) ∧ writeValueText (.int 1000) = some [49, 48, 48, 48] ∧
    textReadNext (30 * 4 + 40) ([49, 48, 48, 48] ++ 32 :: []) =
      some (.Value (.int 1000), 32 :: []) :=
  ⟨show -(2 ^ 31) ≤ (1000 : Int) ∧ (1000 : Int) < 2 ^ 31 from ⟨by decide, by decide⟩,
    rfl,
    claim_C6_text_roundtrip (.int 1000)
      (show -(2 ^ 31) ≤ (1000 : Int) ∧ (1000 : Int) < 2 ^ 31 from
        ⟨by decide, by decide⟩) _ rfl []⟩

/-- C7 (counterexample): the binary reader keeps no depth counter, so an
input exhausted right after an opened group still reads back as
`EndOfFile` rather than an error — contradicting the claimed
depth-dependent EOF rule. -/
theorem claim_C7_counterexample :
    readNext [0xfe] = some (.Start, []) ∧
    readNext [] = some (.EndOfFile, []) := ⟨rfl, rfl⟩

/-- C7 (amended): `read_next` yields `EndOfFile` at the end of input at
any token boundary, group depth notwithstanding; the unterminated-group
error belongs to the consumer layer — `Reader::skip_to_end` fails when
the stream ends with its group still open. -/
theorem claim_C7_eof_rule (bs : List Nat) :
    readNext [] = some (.EndOfFile, []) ∧
    readNext (0xfe :: bs) = some (.Start, bs) ∧
    skipToEnd [.Start] = none :=
  ⟨rfl, rfl, rfl⟩

/-- C8: skip idempotence — from just inside an opened group holding any
balanced contents, `skip_to_end` consumes exactly through the group's
`End`, and the next read yields the token that follows it. -/
theorem claim_C8_skip_idempotence {inner : List Token} (h : Bal inner)
    (t : Token) (rest : List Token) :
    ∃ after, skipToEnd (inner ++ .End :: t :: rest) = some after ∧
      readNextTok after = (t, rest) := by
  refine ⟨t :: rest, ?_, rfl⟩
  rw [skipToEnd, skipToEndAux_bal h (.End :: t :: rest) 0]
  rfl

theorem claim_C8_skip_idempotence_witness :
    Bal [.Value (.int 1), .Start, .End] ∧
    ∃ after, skipToEnd ([.Value (.int 1), .Start, .End] ++
        .End :: .Value (.bool true) :: []) = some after ∧
      readNextTok after = (.Value (.bool true), []) :=
  ⟨.val (.int 1) (.grp .nil .nil),
    claim_C8_skip_idempotence (.val (.int 1) (.grp .nil .nil))
      (.Value (.bool true)) []⟩

/-- C9 (counterexample): `Grid::update` stores the streamed offset
verbatim — with size `(1, 2)` and streamed offset `(3, 4)` the patched
grid's offset is `(3, 4)`, whose Y component is not `grid.size.1`.  The
claim mislocates the bug: no branch of the patch code writes the offset
from `size`. -/
theorem claim_C9_counterexample :
    (Grid.update defaultGrid (Element.writeInterior
        (.Grid ⟨((0, 0), (0, 0)), (1, 2), (3, 4), (0, 0, 0)⟩))).1.offset =
      (3, 4) ∧
    ((3, 4) : Vec2).2 ≠ ((1, 2) : Vec2).2 := ⟨rfl, by decide⟩

/-- C9 (amended): the patch routine replaces all four grid fields with
the streamed values, offset included; the `grid.size.1`-as-Y write is in
the renderer — `draw_grid`'s `grid_offset` uniform
(`widget/rendering.rs`) pairs `grid.offset.0` with `grid.size.1`. -/
theorem claim_C9_grid_offset (g₀ g : Grid) (rest : List Token) :
    Grid.update g₀ (Element.writeInterior (.Grid g) ++ rest) = (g, some rest) ∧
    gridOffsetUniform g = (g.offset.1, g.size.2) :=
  ⟨gridUpdate_write g₀ g rest, rfl⟩

/-- C10: decoding a `PNTS` group zips the `Vec2Array` of locations with
the `DoubleArray` of biases: it always succeeds and the points list has
the length of the shorter array — unequal lengths truncate silently. -/
theorem claim_C10_points_zip (ls : List Vec2) (bs : List Double)
    (rest : List Token) :
    ∃ pts, readPoints (.Value (.vec2Array ls) :: .Value (.doubleArray bs) ::
        .End :: rest) = some (pts, rest) ∧
      pts.length = min ls.length bs.length := by
  refine ⟨(ls.zip bs).map fun (l, b) => Point.mk l b, ?_, ?_⟩
  · rfl
  · simp [List.length_zip]
